import Mathlib

/-!
Verification development for the daily notes manager.

Strings are modelled as lists of characters (`Str`), dates as records of
year, month and day. The functions below are shallow embeddings of the
functions in `note_manager.py`; names follow the source.
-/

set_option maxHeartbeats 1000000

abbrev Str := List Char

/-- Coerce a Lean string literal to the list-of-characters model. -/
def str (s : String) : Str := s.data

/-- Whitespace characters, as stripped by the source language runtime. -/
def isPySpace (c : Char) : Bool :=
  c.toNat == 32 || (9 ≤ c.toNat && c.toNat ≤ 13)

/-- Model of the `strip` method: remove leading and trailing whitespace. -/
def stripStr (s : Str) : Str :=
  ((s.dropWhile isPySpace).reverse.dropWhile isPySpace).reverse

/-- ASCII lowercasing of a single character, as done by `lower`. -/
def toLowerChar (c : Char) : Char :=
  if 65 ≤ c.toNat && c.toNat ≤ 90 then Char.ofNat (c.toNat + 32) else c

/-- Model of the `lower` method. -/
def toLowerStr (s : Str) : Str := s.map toLowerChar

/-- Model of `split(sep)`: split at every separator, keeping empty parts. -/
def splitOn (sep : Char) : Str → List Str
  | [] => [[]]
  | c :: cs =>
    if c = sep then [] :: splitOn sep cs
    else
      match splitOn sep cs with
      | [] => [[c]]
      | s :: rest => (c :: s) :: rest

/-- Model of `split(sep, 1)`: split at the first separator only, when present. -/
def splitFirst (sep : Char) : Str → Option (Str × Str)
  | [] => none
  | c :: cs =>
    if c = sep then some ([], cs)
    else (splitFirst sep cs).map (fun p => (c :: p.1, p.2))

/-- Lexicographic comparison of strings by code point, the `<` of the source
language on strings. -/
def lexLt : Str → Str → Bool
  | _, [] => false
  | [], _ :: _ => true
  | a :: xs, b :: ys =>
    if a.toNat < b.toNat then true
    else if b.toNat < a.toNat then false
    else lexLt xs ys

/-- Insert into a strictly `lexLt`-sorted list, skipping duplicates. -/
def insertStr (x : Str) : List Str → List Str
  | [] => [x]
  | y :: ys =>
    if lexLt x y then x :: y :: ys
    else if lexLt y x then y :: insertStr x ys
    else y :: ys

/-- Model of `sorted(set(l))`: the strictly sorted list of distinct elements. -/
def sortedDedup (l : List Str) : List Str := l.foldr insertStr []

/-- The character for a decimal digit. -/
def digitChar (n : Nat) : Char := Char.ofNat (48 + n % 10)

/-- Two-digit zero-padded decimal rendering (months and days in ISO dates). -/
def pad2 (n : Nat) : Str := [digitChar (n / 10), digitChar n]

/-- Four-digit zero-padded decimal rendering (years in ISO dates). -/
def pad4 (n : Nat) : Str := pad2 (n / 100) ++ pad2 n

/-- Digits of a natural number, with enough fuel for structural recursion. -/
def natToStrAux : Nat → Nat → Str
  | 0, _ => []
  | fuel + 1, n => if n < 10 then [digitChar n] else natToStrAux fuel (n / 10) ++ [digitChar n]

/-- Decimal rendering of a natural number without padding, as `str(n)`. -/
def natToStr (n : Nat) : Str := natToStrAux (n + 1) n

/-- Decimal rendering of an integer, as `str(i)`. -/
def intToStr (i : Int) : Str :=
  if i < 0 then '-' :: natToStr i.natAbs else natToStr i.natAbs

/-- `strStarts p s` holds when `p` is a leading piece of `s` (`startswith`). -/
def strStarts : Str → Str → Bool
  | [], _ => true
  | _ :: _, [] => false
  | p :: ps, c :: cs => p == c && strStarts ps cs

/-- Substring test: model of `find(needle) != -1`. -/
def containsSub (needle : Str) : Str → Bool
  | [] => strStarts needle []
  | c :: cs => strStarts needle (c :: cs) || containsSub needle cs

/-- Model of `endswith`. -/
def endsWithStr (suffix tail : Str) : Bool :=
  strStarts suffix.reverse tail.reverse

/-- Model of `"\n".join(l)`. -/
def joinNL : List Str → Str
  | [] => []
  | [x] => x
  | x :: y :: ys => x ++ '\n' :: joinNL (y :: ys)

/-- A calendar date, mirroring the fields of the runtime `date` type. -/
structure Date where
  year : Nat
  month : Nat
  day : Nat
deriving DecidableEq

/-- Gregorian leap year test. -/
def isLeap (y : Nat) : Bool :=
  (y % 4 == 0 && y % 100 != 0) || y % 400 == 0

/-- Number of days in a month of a given year. -/
def monthLen (y m : Nat) : Nat :=
  if m = 1 then 31 else if m = 2 then (if isLeap y then 29 else 28)
  else if m = 3 then 31 else if m = 4 then 30 else if m = 5 then 31
  else if m = 6 then 30 else if m = 7 then 31 else if m = 8 then 31
  else if m = 9 then 30 else if m = 10 then 31 else if m = 11 then 30
  else if m = 12 then 31 else 0

/-- Validity of a date record: the months and days the runtime date type admits. -/
def Date.Valid (dt : Date) : Prop :=
  1 ≤ dt.month ∧ dt.month ≤ 12 ∧ 1 ≤ dt.day ∧ dt.day ≤ monthLen dt.year dt.month

instance (dt : Date) : Decidable dt.Valid := by
  unfold Date.Valid; infer_instance

/-- The next calendar day, the effect of adding `timedelta(days=1)`. -/
def succDay (dt : Date) : Date :=
  if dt.day < monthLen dt.year dt.month then ⟨dt.year, dt.month, dt.day + 1⟩
  else if dt.month < 12 then ⟨dt.year, dt.month + 1, 1⟩
  else ⟨dt.year + 1, 1, 1⟩

/-- Adding `timedelta(days=n)`. -/
def addDaysN : Nat → Date → Date
  | 0, dt => dt
  | n + 1, dt => succDay (addDaysN n dt)

/-- `strftime` with the zero-padded ISO format `YYYY-MM-DD`. -/
def toIso (dt : Date) : Str :=
  pad4 dt.year ++ '-' :: (pad2 dt.month ++ '-' :: pad2 dt.day)

/-- Numeric value of a digit string. -/
def digitsToNat (s : Str) : Nat := s.foldl (fun a c => a * 10 + (c.toNat - 48)) 0

/-- Model of `date.fromisoformat` on a well-formed `YYYY-MM-DD` string. -/
def fromIso (s : Str) : Date :=
  ⟨digitsToNat (s.take 4), digitsToNat ((s.drop 5).take 2), digitsToNat (s.drop 8)⟩

/-- Day of the week by the Zeller congruence: 0 is Saturday, 1 Sunday, 2 Monday
and so on, matching the weekday reported by `strftime`. -/
def zellerH (dt : Date) : Nat :=
  let y := if dt.month < 3 then dt.year - 1 else dt.year
  let m := if dt.month < 3 then dt.month + 12 else dt.month
  (dt.day + 13 * (m + 1) / 5 + y % 100 + y % 100 / 4 + y / 100 / 4 + 5 * (y / 100)) % 7

/-- Lowercased three-letter weekday abbreviations indexed by `zellerH`. -/
def dowShortNames : List Str :=
  [str "sat", str "sun", str "mon", str "tue", str "wed", str "thu", str "fri"]

/-- `strftime` weekday abbreviation, lowercased as in the pattern matcher. -/
def dowAbbrev (dt : Date) : Str := dowShortNames.getD (zellerH dt) []

/-- Full weekday names indexed by `zellerH`. -/
def dowFullNames : List Str :=
  [str "Saturday", str "Sunday", str "Monday", str "Tuesday", str "Wednesday",
   str "Thursday", str "Friday"]

/-- `print_day_of_week` from the source: the full weekday name of a date. -/
def print_day_of_week (dt : Date) : Str := dowFullNames.getD (zellerH dt) []

/-- Serial day number of a date (civil calendar algorithm); only differences
of these values are used. -/
def daysFromCivil (dt : Date) : Int :=
  let y : Int := if dt.month ≤ 2 then (dt.year : Int) - 1 else (dt.year : Int)
  let mp : Int := ((dt.month : Int) + 9) % 12
  let doy : Int := (153 * mp + 2) / 5 + (dt.day : Int) - 1
  y * 365 + y / 4 - y / 100 + y / 400 + doy

/-- `countdown` from the source: the signed number of days from the first
date to the second. -/
def countdown (start_date end_date : Date) : Int :=
  daysFromCivil end_date - daysFromCivil start_date

/-- The seven ISO date strings of the lookahead window starting at a date;
`all_week_as_string` in the source. -/
def all_week_as_string (today_date : Date) : List Str :=
  (List.range 7).map (fun i => toIso (addDaysN i today_date))

/-- ASCII digit test, the model of the digit class in the token patterns. -/
def isDigitChar (c : Char) : Bool := 48 ≤ c.toNat && c.toNat ≤ 57

/-- All characters are digits. -/
def isDigitStr (s : Str) : Bool := s.all isDigitChar

/-- The recognised weekday tokens. -/
def weekdayTokens : List Str :=
  [str "mon", str "tue", str "wed", str "thu", str "fri", str "sat", str "sun"]

/-- The dates contributed by one (stripped, lowercased) token of a pattern:
the per-token body of the loop in `get_days_for_pattern`. -/
def tokenMatches (sub : Str) (allWeek : List Str) : List Str :=
  if isDigitStr sub && sub.length == 8 then
    let formatted := sub.take 4 ++ '-' :: ((sub.drop 4).take 2 ++ '-' :: sub.drop 6)
    allWeek.filter (fun d => d = formatted)
  else if isDigitStr sub && sub.length == 2 then
    allWeek.filter (fun d => d.drop (d.length - 2) = sub)
  else if isDigitStr sub && sub.length == 4 then
    let asString := sub.take 2 ++ '-' :: sub.drop 2
    allWeek.filter (fun d => d.drop 5 = asString)
  else if sub ∈ weekdayTokens then
    allWeek.filter (fun d => dowAbbrev (fromIso d) = sub)
  else []

/-- `get_days_for_pattern` from the source: resolve a recurrence pattern to
the sorted list of matching ISO date strings in the 7-day window. -/
def get_days_for_pattern (pattern : Str) (today_date : Date) : List Str :=
  let allWeek := all_week_as_string today_date
  if pattern = [] ∨ pattern = ['*'] then allWeek
  else
    let matched := (splitOn ',' pattern).foldl
      (fun acc sub => acc ++ tokenMatches (toLowerStr (stripStr sub)) allWeek) []
    sortedDedup matched

example : get_days_for_pattern (str "") ⟨2025, 1, 1⟩ =
    [str "2025-01-01", str "2025-01-02", str "2025-01-03", str "2025-01-04",
     str "2025-01-05", str "2025-01-06", str "2025-01-07"] := by decide

example : get_days_for_pattern (str "31") ⟨2025, 1, 31⟩ = [str "2025-01-31"] := by decide

example : get_days_for_pattern (str "0101,mon,26") ⟨2025, 1, 1⟩ =
    [str "2025-01-01", str "2025-01-06"] := by decide

example : get_days_for_pattern (str "mon,*") ⟨2025, 1, 1⟩ = [str "2025-01-06"] := by decide

example : get_days_for_pattern (str "1225") ⟨2025, 12, 24⟩ = [str "2025-12-25"] := by decide

example : get_days_for_pattern (str "mon") ⟨2025, 2, 28⟩ = [str "2025-03-03"] := by decide

/-- The parsed configuration, mirroring `NoteManagerConfig` in
`note_data_structures.py`: resolved task schedule plus ordered sections. -/
structure NoteManagerConfig where
  task_list_for_day : List (List Str × Str)
  sections : List (Str × Str)
deriving DecidableEq

/-- The task-line handler inside `parse_config`: split an already stripped
line at the first colon into a date pattern and a task text, resolving the
pattern; a line without a colon is a task with the empty pattern. -/
def parseTaskLine (line : Str) (today_date : Date) : List Str × Str :=
  match splitFirst ':' line with
  | some (before, after) =>
      (get_days_for_pattern (stripStr before) today_date, stripStr after)
  | none => (get_days_for_pattern [] today_date, line)

/-- `name.lower().find("tasks") != -1`, the tasks-section test. -/
def isTasksName (name : Str) : Bool := containsSub (str "tasks") (toLowerStr name)

/-- Parser state of `parse_config` while scanning lines. -/
structure ParseState where
  inTasks : Bool
  sections : List (Str × Str)
  curName : Str
  curContent : List Str
  tasks : List (List Str × Str)

/-- One line of the `parse_config` loop. -/
def parseLine (today_date : Date) (st : ParseState) (rawLine : Str) : ParseState :=
  let line := stripStr rawLine
  if line = [] then st
  else if strStarts (str "#") line then
    { inTasks := isTasksName line
      sections := st.sections ++ [(st.curName, joinNL st.curContent)]
      curName := line
      curContent := []
      tasks := st.tasks }
  else if st.inTasks then
    { st with tasks := st.tasks ++ [parseTaskLine line today_date] }
  else
    { st with curContent := st.curContent ++ [line] }

/-- `parse_config` from the source, on the list of raw lines of the
configuration document. -/
def parse_config (docLines : List Str) (today_date : Date) : NoteManagerConfig :=
  let st := docLines.foldl (parseLine today_date) ⟨false, [], [], [], []⟩
  ⟨st.tasks, st.sections ++ [(st.curName, joinNL st.curContent)]⟩

/-- `output_tasks_for_day` from the source: the checklist lines of the tasks
scheduled for one ISO day, in configuration order. -/
def output_tasks_for_day (config : NoteManagerConfig) (day : Str) : List Str :=
  config.task_list_for_day.foldl
    (fun acc td => if day ∈ td.1 then acc ++ [str "- [ ] " ++ td.2] else acc) []

/-- `get_task_if_task_line` from the source: the unchecked-item pattern
match returning the trimmed task text of a checklist line. -/
def get_task_if_task_line (line : Str) : Option Str :=
  match line with
  | b :: s1 :: br1 :: s2 :: br2 :: s3 :: rest =>
      if (b == '*' || b == '-') && isPySpace s1 && br1 == '[' && isPySpace s2
          && br2 == ']' && isPySpace s3 && !(rest.takeWhile (fun c => c ≠ '\n')).isEmpty
      then some (stripStr (rest.takeWhile (fun c => c ≠ '\n')))
      else none
  | _ => none

/-- The checked-item pattern of the source, used when filtering. -/
def isCheckedLine (line : Str) : Bool :=
  match line with
  | b :: s1 :: br1 :: x :: br2 :: s3 :: _ =>
      (b == '*' || b == '-') && isPySpace s1 && br1 == '[' && (x == 'x' || x == 'X')
        && br2 == ']' && isPySpace s3
  | _ => false

/-- Collect the unchecked tasks found in a list of lines, each line
stripped before matching. -/
def harvestLines (ls : List Str) : List Str :=
  ls.foldl
    (fun acc line =>
      match get_task_if_task_line (stripStr line) with
      | some t => acc ++ [t]
      | none => acc) []

/-- `process_incomplete_task_file` on the text of the carry-forward
document: harvest every unchecked task line. -/
def process_incomplete_task_file (doc : Str) : List Str :=
  harvestLines (splitOn '\n' doc)

/-- The live notes directory with its archive and backup stores and the
optional carry-forward document, keyed by file name. -/
structure NotesFS where
  live : List (Str × List Str)
  archive : List (Str × List Str)
  backup : List (Str × List Str)
  carry : Option Str
deriving DecidableEq

/-- Look up a file by name. -/
def lookupDoc (files : List (Str × List Str)) (name : Str) : Option (List Str) :=
  (files.find? (fun p => p.1 == name)).map Prod.snd

/-- Name membership in a store. -/
def memName (name : Str) (files : List (Str × List Str)) : Bool :=
  files.any (fun p => p.1 == name)

/-- The ephemeral-line marker. -/
def ephemeralMarker : Str := str "(delete_if_not_entered)"

/-- `process_single_file_before_archiving` followed by the rename in
`process_old`: read one live file, drop ephemeral lines, collect unchecked
tasks, write the filtered copy to the archive, move the original to the
backup. Fails when the file cannot be read. -/
def rotateOne (name : Str) (fs : NotesFS) : Except Unit (NotesFS × List Str) :=
  match lookupDoc fs.live name with
  | none => .error ()
  | some lines =>
      let newLines := lines.filter (fun l => !endsWithStr ephemeralMarker (stripStr l))
      let tasks := harvestLines newLines
      .ok ({ live := fs.live.filter (fun p => !(p.1 == name))
             archive := (name, newLines) :: fs.archive
             backup := (name, lines) :: fs.backup
             carry := fs.carry }, tasks)

/-- The per-file loop of `process_old`: files with names below the ISO
string of today are rotated; a failure terminates the whole run carrying
the offending file name. -/
def processOldLoop (todayStr : Str) :
    List Str → NotesFS → List Str → Except Str (NotesFS × List Str)
  | [], fs, acc => .ok (fs, acc)
  | f :: rest, fs, acc =>
    if lexLt f todayStr then
      match rotateOne f fs with
      | .error _ => .error f
      | .ok (fs', tasks) => processOldLoop todayStr rest fs' (acc ++ tasks)
    else processOldLoop todayStr rest fs acc

/-- `process_old` from the source: rotate expired files, then union in the
tasks harvested from the carry-forward document when it exists. -/
def process_old (note_files : List Str) (fs : NotesFS) (today_date : Date) :
    Except Str (NotesFS × List Str) :=
  match processOldLoop (toIso today_date) note_files fs [] with
  | .error f => .error f
  | .ok (fs', acc) =>
      let carryTasks := match fs'.carry with
        | none => []
        | some doc => process_incomplete_task_file doc
      .ok (fs', acc ++ carryTasks)

/-- The dated header line of the carry-forward document, day/month/year
with no zero padding. -/
def incompleteHeader (today_date : Date) : Str :=
  str "Incomplete task list updated on " ++ natToStr today_date.day ++ str "/"
    ++ natToStr today_date.month ++ str "/" ++ natToStr today_date.year ++ str ":"

/-- The text written by `write_incomplete_tasks_to_file`: a dated header,
then either one checklist line per task in sorted order or the sentinel. -/
def write_incomplete_tasks_to_file (incomplete_tasks : List Str) (today_date : Date) : Str :=
  incompleteHeader today_date ++ '\n' :: '\n' ::
    (if incomplete_tasks ≠ [] then
      (sortedDedup incomplete_tasks).foldr (fun t acc => str "- [ ] " ++ t ++ '\n' :: acc) []
    else str "No incomplete tasks found." ++ ['\n'])

/-- The countdown directive body pattern: a date `YYYY-MM-DD` followed by a
comma; returns the date digits and the rest of the line. -/
def matchIsoComma (s : Str) : Option (Str × Str) :=
  match s with
  | a :: b :: c :: d :: h1 :: e :: f :: h2 :: g :: k :: cm :: rest =>
      if isDigitChar a && isDigitChar b && isDigitChar c && isDigitChar d
          && h1 == '-' && isDigitChar e && isDigitChar f && h2 == '-'
          && isDigitChar g && isDigitChar k && cm == ',' then
        some ([a, b, c, d, h1, e, f, h2, g, k], rest.takeWhile (fun ch => ch ≠ '\n'))
      else none
  | _ => none

/-- `re.search` of the countdown body pattern: the match at the leftmost
possible start position. -/
def searchIsoComma : Str → Option (Str × Str)
  | [] => none
  | c :: cs =>
    match matchIsoComma (c :: cs) with
    | some r => some r
    | none => searchIsoComma cs

/-- The day-of-week placeholder token. -/
def dowToken : Str := str "%dow%"

/-- Replace every occurrence of the `%dow%` token, with enough fuel for
structural recursion. -/
def replaceDowAux (repl : Str) : Nat → Str → Str
  | 0, s => s
  | _fuel + 1, [] => []
  | fuel + 1, c :: cs =>
    if strStarts dowToken (c :: cs) then repl ++ replaceDowAux repl fuel (cs.drop 4)
    else c :: replaceDowAux repl fuel cs

/-- Replace every occurrence of the `%dow%` token. -/
def replaceDow (repl : Str) (s : Str) : Str := replaceDowAux repl s.length s

/-- The day-of-week substitution step applied to one content line: the
token is replaced only when present, as in the source. -/
def applyDow (file_date : Date) (rawLine : Str) : Str :=
  if containsSub dowToken rawLine then
    replaceDow (print_day_of_week file_date) rawLine
  else rawLine

/-- One literal content line of a non-task section as rendered by
`create_file_for_day`: substitute the day-of-week token, then either expand
a countdown directive (dropping it when its body has no date match) or emit
the line as it is. -/
def renderContentLine (file_date : Date) (rawLine : Str) : Str :=
  let line := applyDow file_date rawLine
  if strStarts (str "countdown:") line then
    match searchIsoComma (line.drop 10) with
    | some (dstr, label) =>
        let countdown_name := stripStr label
        let days_left := countdown file_date (fromIso dstr)
        countdown_name ++ ' ' :: intToStr days_left
          ++ ' ' :: (if days_left ≠ 1 then str "days" else str "day") ++ ['\n']
    | none => []
  else line

/-- One section of the daily file as rendered by `create_file_for_day`. -/
def render_section (config : NoteManagerConfig) (incomplete : List Str)
    (file_date : Date) (sec : Str × Str) : Str :=
  (if sec.1 ≠ [] then sec.1 ++ ['\n'] else [])
  ++ (if isTasksName sec.1 then
        str "At the last calculation there were " ++ natToStr incomplete.length
          ++ str " [[incomplete tasks]]." ++ ['\n']
        ++ (let tasks_for_day := output_tasks_for_day config (toIso file_date)
            if tasks_for_day ≠ [] then joinNL tasks_for_day ++ ['\n']
            else str "- [ ] No tasks for today" ++ ['\n'])
      else if sec.2 ≠ [] then
        ((splitOn '\n' sec.2).map (renderContentLine file_date)).foldr (· ++ ·) []
          ++ '\n' :: ['\n']
      else [])

/-- `create_file_for_day` from the source: the full text written for one
date, the concatenation of the rendered sections in order. -/
def create_file_for_day (config : NoteManagerConfig) (incomplete : List Str)
    (file_date : Date) : Str :=
  config.sections.foldl (fun acc sec => acc ++ render_section config incomplete file_date sec) []

/-- A token shape the matcher recognises: one of the digit shapes or a
weekday abbreviation. An unrecognised token falls through every branch. -/
def recognizedToken (sub : Str) : Bool :=
  (isDigitStr sub && sub.length == 8) || (isDigitStr sub && sub.length == 2)
    || (isDigitStr sub && sub.length == 4) || decide (sub ∈ weekdayTokens)

/-! ### Order theory for the code point lexicographic comparison -/

theorem charToNat_inj {a b : Char} (h : a.toNat = b.toNat) : a = b :=
  Char.eq_of_val_eq (UInt32.ext h)

theorem lexLt_nil_right (s : Str) : lexLt s [] = false := by
  cases s <;> rfl

theorem lexLt_irrefl (s : Str) : lexLt s s = false := by
  induction s with
  | nil => rfl
  | cons c t ih => simp [lexLt, ih]

theorem lexLt_asymm : ∀ {a b : Str}, lexLt a b = true → lexLt b a = false
  | _, [], h => by simp [lexLt_nil_right] at h
  | [], _ :: _, _ => rfl
  | a :: xs, b :: ys, h => by
    simp only [lexLt] at h ⊢
    rcases Nat.lt_trichotomy a.toNat b.toNat with hl | he | hg
    · rw [if_neg (by omega : ¬ b.toNat < a.toNat), if_pos hl]
    · rw [if_neg (by omega : ¬ a.toNat < b.toNat),
        if_neg (by omega : ¬ b.toNat < a.toNat)] at h
      rw [if_neg (by omega : ¬ b.toNat < a.toNat),
        if_neg (by omega : ¬ a.toNat < b.toNat)]
      exact lexLt_asymm h
    · rw [if_neg (by omega : ¬ a.toNat < b.toNat), if_pos hg] at h
      exact absurd h (by simp)

theorem lexLt_connex : ∀ {a b : Str}, lexLt a b = false → lexLt b a = false → a = b
  | [], [], _, _ => rfl
  | [], _ :: _, h, _ => by simp [lexLt] at h
  | _ :: _, [], _, h => by simp [lexLt] at h
  | a :: xs, b :: ys, h1, h2 => by
    simp only [lexLt] at h1 h2
    rcases Nat.lt_trichotomy a.toNat b.toNat with hl | he | hg
    · rw [if_pos hl] at h1
      exact absurd h1 (by simp)
    · rw [if_neg (by omega : ¬ a.toNat < b.toNat),
        if_neg (by omega : ¬ b.toNat < a.toNat)] at h1
      rw [if_neg (by omega : ¬ b.toNat < a.toNat),
        if_neg (by omega : ¬ a.toNat < b.toNat)] at h2
      rw [charToNat_inj he, lexLt_connex h1 h2]
    · rw [if_pos hg] at h2
      exact absurd h2 (by simp)

theorem lexLt_trans : ∀ {a b c : Str}, lexLt a b = true → lexLt b c = true → lexLt a c = true
  | _, _, [], _, h2 => by simp [lexLt_nil_right] at h2
  | _, [], _ :: _, h1, _ => by simp [lexLt_nil_right] at h1
  | [], _ :: _, _ :: _, _, _ => rfl
  | a :: xs, b :: ys, c :: zs, h1, h2 => by
    simp only [lexLt] at h1 h2 ⊢
    rcases Nat.lt_trichotomy a.toNat b.toNat with hl | he | hg
    · rcases Nat.lt_trichotomy b.toNat c.toNat with hl2 | he2 | hg2
      · rw [if_pos (by omega : a.toNat < c.toNat)]
      · rw [if_pos (by omega : a.toNat < c.toNat)]
      · rw [if_neg (by omega : ¬ b.toNat < c.toNat), if_pos hg2] at h2
        exact absurd h2 (by simp)
    · rcases Nat.lt_trichotomy b.toNat c.toNat with hl2 | he2 | hg2
      · rw [if_pos (by omega : a.toNat < c.toNat)]
      · rw [if_neg (by omega : ¬ a.toNat < b.toNat),
          if_neg (by omega : ¬ b.toNat < a.toNat)] at h1
        rw [if_neg (by omega : ¬ b.toNat < c.toNat),
          if_neg (by omega : ¬ c.toNat < b.toNat)] at h2
        rw [if_neg (by omega : ¬ a.toNat < c.toNat),
          if_neg (by omega : ¬ c.toNat < a.toNat)]
        exact lexLt_trans h1 h2
      · rw [if_neg (by omega : ¬ b.toNat < c.toNat), if_pos hg2] at h2
        exact absurd h2 (by simp)
    · rw [if_neg (by omega : ¬ a.toNat < b.toNat), if_pos hg] at h1
      exact absurd h1 (by simp)

theorem lexLt_cons_same (c : Char) (xs ys : Str) :
    lexLt (c :: xs) (c :: ys) = lexLt xs ys := by
  simp [lexLt]

theorem lexLt_append_block : ∀ {a b : Str} (c d : Str), a.length = b.length →
    (lexLt (a ++ c) (b ++ d) = true ↔ (lexLt a b = true ∨ (a = b ∧ lexLt c d = true)))
  | [], [], c, d, _ => by simp [lexLt]
  | [], _ :: _, _, _, h => by simp at h
  | _ :: _, [], _, _, h => by simp at h
  | a :: xs, b :: ys, c, d, h => by
    simp only [List.length_cons, Nat.add_right_cancel_iff] at h
    simp only [List.cons_append]
    rcases Nat.lt_trichotomy a.toNat b.toNat with hl | he | hg
    · simp only [lexLt, if_pos hl]
      simp
    · rw [charToNat_inj he]
      rw [lexLt_cons_same, lexLt_cons_same, lexLt_append_block c d h]
      simp
    · simp only [lexLt, if_neg (by omega : ¬ a.toNat < b.toNat), if_pos hg]
      have hne : a ≠ b := fun hc => by rw [hc] at hg; omega
      simp [hne]

theorem lexLt_append_right {a b : Str} (s : Str) (h : a.length = b.length) :
    lexLt (a ++ s) b = lexLt a b := by
  have key := @lexLt_append_block a b s [] h
  rw [List.append_nil] at key
  simp only [lexLt_nil_right, Bool.false_eq_true, and_false, or_false] at key
  cases hab : lexLt a b with
  | true => exact key.mpr hab
  | false =>
    by_contra hc
    rw [Bool.not_eq_false] at hc
    rw [key.mp hc] at hab
    exact absurd hab (by simp)

/-! ### Digit and padding lemmas -/

theorem digitChar_toNat (n : Nat) : (digitChar n).toNat = 48 + n % 10 := by
  have h : ∀ r < 10, (Char.ofNat (48 + r)).toNat = 48 + r := by decide
  exact h _ (Nat.mod_lt _ (by omega))

theorem digitChar_inj {a b : Nat} (h : digitChar a = digitChar b) : a % 10 = b % 10 := by
  have hc := congrArg Char.toNat h
  rw [digitChar_toNat, digitChar_toNat] at hc
  omega

theorem lexLt_pad2 (a b : Nat) (ha : a ≤ 99) (hb : b ≤ 99) :
    (lexLt (pad2 a) (pad2 b) = true ↔ a < b) := by
  simp only [pad2, lexLt, digitChar_toNat]
  split_ifs <;> simp_all <;> omega

theorem pad2_inj {a b : Nat} (ha : a ≤ 99) (hb : b ≤ 99) : pad2 a = pad2 b ↔ a = b := by
  constructor
  · intro h
    simp only [pad2, List.cons.injEq, and_true] at h
    obtain ⟨h1, h2⟩ := h
    have e1 := digitChar_inj h1
    have e2 := digitChar_inj h2
    omega
  · intro h; rw [h]

theorem pad2_mod (n : Nat) : pad2 n = pad2 (n % 100) := by
  have h1 : n / 10 % 10 = n % 100 / 10 % 10 := by omega
  have h2 : n % 10 = n % 100 % 10 := by omega
  simp only [pad2, digitChar]
  rw [h1, h2]

theorem pad2_length (n : Nat) : (pad2 n).length = 2 := rfl

theorem lexLt_pad4 (a b : Nat) (ha : a ≤ 9999) (hb : b ≤ 9999) :
    (lexLt (pad4 a) (pad4 b) = true ↔ a < b) := by
  unfold pad4
  rw [pad2_mod a, pad2_mod b]
  rw [@lexLt_append_block (pad2 (a / 100)) (pad2 (b / 100)) (pad2 (a % 100)) (pad2 (b % 100)) rfl]
  rw [lexLt_pad2 (a / 100) (b / 100) (by omega) (by omega)]
  rw [lexLt_pad2 (a % 100) (b % 100) (by omega) (by omega)]
  rw [pad2_inj (show a / 100 ≤ 99 by omega) (show b / 100 ≤ 99 by omega)]
  omega

theorem pad4_inj {a b : Nat} (ha : a ≤ 9999) (hb : b ≤ 9999) : pad4 a = pad4 b ↔ a = b := by
  constructor
  · intro h
    unfold pad4 at h
    rw [pad2_mod a, pad2_mod b] at h
    obtain ⟨h1, h2⟩ := List.append_inj h rfl
    have e1 := (pad2_inj (show a / 100 ≤ 99 by omega) (show b / 100 ≤ 99 by omega)).mp h1
    have e2 := (pad2_inj (show a % 100 ≤ 99 by omega) (show b % 100 ≤ 99 by omega)).mp h2
    omega
  · intro h; rw [h]

theorem pad4_length (n : Nat) : (pad4 n).length = 4 := rfl

theorem toIso_length (dt : Date) : (toIso dt).length = 10 := by
  simp [toIso, pad4, pad2]

/-- Lexicographic comparison of two ISO date strings agrees with the
year-month-day order of the dates. -/
theorem toIso_lt {d1 d2 : Date} (h1y : d1.year ≤ 9999) (h2y : d2.year ≤ 9999)
    (h1m : d1.month ≤ 99) (h2m : d2.month ≤ 99) (h1d : d1.day ≤ 99) (h2d : d2.day ≤ 99) :
    (lexLt (toIso d1) (toIso d2) = true ↔
      (d1.year < d2.year ∨ (d1.year = d2.year ∧
        (d1.month < d2.month ∨ (d1.month = d2.month ∧ d1.day < d2.day))))) := by
  unfold toIso
  rw [@lexLt_append_block (pad4 d1.year) (pad4 d2.year) _ _ (by rw [pad4_length, pad4_length])]
  rw [lexLt_cons_same]
  rw [@lexLt_append_block (pad2 d1.month) (pad2 d2.month) _ _ rfl]
  rw [lexLt_cons_same]
  rw [lexLt_pad4 _ _ h1y h2y, pad4_inj h1y h2y]
  rw [lexLt_pad2 _ _ h1m h2m, pad2_inj h1m h2m]
  rw [lexLt_pad2 _ _ h1d h2d]

/-! ### Date lemmas and sortedness of the lookahead window -/

theorem monthLen_le (y m : Nat) : monthLen y m ≤ 31 := by
  unfold monthLen; split_ifs <;> omega

theorem monthLen_pos {y m : Nat} (h1 : 1 ≤ m) (h2 : m ≤ 12) : 1 ≤ monthLen y m := by
  unfold monthLen; split_ifs <;> omega

theorem succDay_valid {dt : Date} (h : dt.Valid) : (succDay dt).Valid := by
  obtain ⟨hm1, hm2, hd1, hd2⟩ := h
  unfold succDay
  split_ifs with h1 h2
  · exact ⟨hm1, hm2, (by omega : 1 ≤ dt.day + 1),
      (by omega : dt.day + 1 ≤ monthLen dt.year dt.month)⟩
  · exact ⟨(by omega : 1 ≤ dt.month + 1), (by omega : dt.month + 1 ≤ 12), le_refl 1,
      @monthLen_pos dt.year (dt.month + 1) (by omega) (by omega)⟩
  · exact ⟨le_refl 1, (by omega : (1 : Nat) ≤ 12), le_refl 1,
      @monthLen_pos (dt.year + 1) 1 (le_refl 1) (by omega)⟩

theorem succDay_year_le (dt : Date) : (succDay dt).year ≤ dt.year + 1 := by
  unfold succDay
  split_ifs
  · exact (by omega : dt.year ≤ dt.year + 1)
  · exact (by omega : dt.year ≤ dt.year + 1)
  · exact le_refl (dt.year + 1)

/-- One day forward strictly increases the ISO string. -/
theorem lexLt_toIso_succDay {dt : Date} (h : dt.Valid) (hy : dt.year + 1 ≤ 9999) :
    lexLt (toIso dt) (toIso (succDay dt)) = true := by
  obtain ⟨hm1, hm2, hd1, hd2⟩ := h
  have hml := monthLen_le dt.year dt.month
  unfold succDay
  split_ifs with h1 h2
  · exact (@toIso_lt dt ⟨dt.year, dt.month, dt.day + 1⟩
      (by omega : dt.year ≤ 9999) (by omega : dt.year ≤ 9999)
      (by omega : dt.month ≤ 99) (by omega : dt.month ≤ 99)
      (by omega : dt.day ≤ 99) (by omega : dt.day + 1 ≤ 99)).mpr
      (Or.inr ⟨rfl, Or.inr ⟨rfl, (by omega : dt.day < dt.day + 1)⟩⟩)
  · exact (@toIso_lt dt ⟨dt.year, dt.month + 1, 1⟩
      (by omega : dt.year ≤ 9999) (by omega : dt.year ≤ 9999)
      (by omega : dt.month ≤ 99) (by omega : dt.month + 1 ≤ 99)
      (by omega : dt.day ≤ 99) (by omega : (1 : Nat) ≤ 99)).mpr
      (Or.inr ⟨rfl, Or.inl (by omega : dt.month < dt.month + 1)⟩)
  · exact (@toIso_lt dt ⟨dt.year + 1, 1, 1⟩
      (by omega : dt.year ≤ 9999) (by omega : dt.year + 1 ≤ 9999)
      (by omega : dt.month ≤ 99) (by omega : (1 : Nat) ≤ 99)
      (by omega : dt.day ≤ 99) (by omega : (1 : Nat) ≤ 99)).mpr
      (Or.inl (by omega : dt.year < dt.year + 1))

theorem addDaysN_valid {dt : Date} (h : dt.Valid) : ∀ n, (addDaysN n dt).Valid
  | 0 => h
  | n + 1 => succDay_valid (addDaysN_valid h n)

theorem addDaysN_year_le (dt : Date) : ∀ n, (addDaysN n dt).year ≤ dt.year + n
  | 0 => le_refl _
  | n + 1 => by
    have h1 := succDay_year_le (addDaysN n dt)
    have h2 := addDaysN_year_le dt n
    simp only [addDaysN]
    omega

theorem all_week_step {dt : Date} (h : dt.Valid) (hy : dt.year ≤ 9992) (i : Nat)
    (hi : i ≤ 6) :
    lexLt (toIso (addDaysN i dt)) (toIso (addDaysN (i + 1) dt)) = true := by
  have hv := addDaysN_valid h i
  have hyl := addDaysN_year_le dt i
  exact lexLt_toIso_succDay hv (by omega)

/-- The seven window strings are strictly increasing. -/
theorem all_week_pairwise {dt : Date} (h : dt.Valid) (hy : dt.year ≤ 9992) :
    List.Pairwise (fun a b => lexLt a b = true) (all_week_as_string dt) := by
  have s0 := all_week_step h hy 0 (by omega)
  have s1 := all_week_step h hy 1 (by omega)
  have s2 := all_week_step h hy 2 (by omega)
  have s3 := all_week_step h hy 3 (by omega)
  have s4 := all_week_step h hy 4 (by omega)
  have s5 := all_week_step h hy 5 (by omega)
  have hw : all_week_as_string dt =
      [toIso (addDaysN 0 dt), toIso (addDaysN 1 dt), toIso (addDaysN 2 dt),
       toIso (addDaysN 3 dt), toIso (addDaysN 4 dt), toIso (addDaysN 5 dt),
       toIso (addDaysN 6 dt)] := rfl
  haveI : IsTrans Str (fun a b => lexLt a b = true) :=
    ⟨fun _ _ _ hab hbc => lexLt_trans hab hbc⟩
  rw [hw, ← List.chain'_iff_pairwise]
  simp only [List.chain'_cons, List.chain'_singleton, and_true]
  exact ⟨s0, s1, s2, s3, s4, s5⟩

/-! ### The sorted set produced by the pattern matcher -/

theorem mem_insertStr {x a : Str} : ∀ {l : List Str}, x ∈ insertStr a l ↔ (x = a ∨ x ∈ l)
  | [] => by simp [insertStr]
  | y :: ys => by
    simp only [insertStr]
    split_ifs with h1 h2
    · simp [List.mem_cons]
    · simp only [List.mem_cons, mem_insertStr]
      tauto
    · have hy : y = a := lexLt_connex (Bool.not_eq_true _ ▸ h2) (Bool.not_eq_true _ ▸ h1)
      subst hy
      simp only [List.mem_cons]
      tauto

theorem pairwise_insertStr {a : Str} : ∀ {l : List Str},
    List.Pairwise (fun x y => lexLt x y = true) l →
    List.Pairwise (fun x y => lexLt x y = true) (insertStr a l)
  | [], _ => by simp [insertStr]
  | y :: ys, hp => by
    obtain ⟨hy, hys⟩ := List.pairwise_cons.mp hp
    simp only [insertStr]
    split_ifs with h1 h2
    · refine List.pairwise_cons.mpr ⟨?_, hp⟩
      intro b hb
      rcases List.mem_cons.mp hb with rfl | hb2
      · exact h1
      · exact lexLt_trans h1 (hy b hb2)
    · refine List.pairwise_cons.mpr ⟨?_, pairwise_insertStr hys⟩
      intro b hb
      rcases mem_insertStr.mp hb with rfl | hb2
      · exact h2
      · exact hy b hb2
    · exact hp

theorem sortedDedup_pairwise (l : List Str) :
    List.Pairwise (fun x y => lexLt x y = true) (sortedDedup l) := by
  unfold sortedDedup
  induction l with
  | nil => simp
  | cons x t ih => exact pairwise_insertStr ih

theorem mem_sortedDedup {x : Str} : ∀ {l : List Str}, x ∈ sortedDedup l ↔ x ∈ l
  | [] => by simp [sortedDedup]
  | y :: ys => by
    simp only [sortedDedup, List.foldr_cons, mem_insertStr, List.mem_cons]
    have hrec := @mem_sortedDedup x ys
    simp only [sortedDedup] at hrec
    rw [hrec]

theorem sortedDedup_nodup (l : List Str) : (sortedDedup l).Nodup :=
  (sortedDedup_pairwise l).imp (fun hxy he => by
    subst he
    rw [lexLt_irrefl] at hxy
    exact absurd hxy (by simp))

theorem tokenMatches_subset {x sub : Str} {w : List Str} (h : x ∈ tokenMatches sub w) :
    x ∈ w := by
  unfold tokenMatches at h
  split_ifs at h <;> first | exact List.mem_of_mem_filter h | simp at h

theorem mem_foldl_matches (f : Str → List Str) :
    ∀ (toks : List Str) (init : List Str) (x : Str),
      (x ∈ toks.foldl (fun acc t => acc ++ f t) init ↔ x ∈ init ∨ ∃ t ∈ toks, x ∈ f t)
  | [], init, x => by simp
  | t :: ts, init, x => by
    simp only [List.foldl_cons]
    rw [mem_foldl_matches f ts (init ++ f t) x]
    simp only [List.mem_append, List.mem_cons, exists_eq_or_imp]
    tauto

theorem nodup_of_pairwise_lexLt {l : List Str}
    (h : List.Pairwise (fun a b => lexLt a b = true) l) : l.Nodup :=
  h.imp (fun hxy he => by
    subst he
    rw [lexLt_irrefl] at hxy
    exact absurd hxy (by simp))

/-! ### Lemmas about token splitting -/

theorem splitOn_ne_nil (c : Char) (s : Str) : splitOn c s ≠ [] := by
  cases s with
  | nil => simp [splitOn]
  | cons x xs =>
    unfold splitOn
    split_ifs
    · simp
    · cases h : splitOn c xs with
      | nil => simp
      | cons s rest => simp

theorem splitOn_cons_eq (c : Char) (t : Str) : splitOn c (c :: t) = [] :: splitOn c t := by
  simp [splitOn]

theorem splitOn_cons_ne (c x : Char) (t : Str) (hx : ¬ x = c) (s : Str) (rest : List Str)
    (ht : splitOn c t = s :: rest) : splitOn c (x :: t) = (x :: s) :: rest := by
  unfold splitOn
  rw [if_neg hx, ht]

theorem splitOn_no_sep (c : Char) : ∀ (s : Str), c ∉ s → splitOn c s = [s]
  | [], _ => rfl
  | x :: xs, h => by
    have hx : ¬ x = c := fun he => h (by simp [he])
    have hrec := splitOn_no_sep c xs (fun hc => h (List.mem_cons_of_mem _ hc))
    exact splitOn_cons_ne c x xs hx xs [] hrec

theorem splitOn_sep_append (c : Char) : ∀ (xs ys : Str), c ∉ xs →
    splitOn c (xs ++ c :: ys) = xs :: splitOn c ys
  | [], ys, _ => by simp only [List.nil_append]; exact splitOn_cons_eq c ys
  | x :: xs, ys, h => by
    have hx : ¬ x = c := fun he => h (by simp [he])
    have hrec := splitOn_sep_append c xs ys (fun hc => h (List.mem_cons_of_mem _ hc))
    simp only [List.cons_append]
    exact splitOn_cons_ne c x (xs ++ c :: ys) hx xs (splitOn c ys) hrec

theorem splitOn_append_tok (c : Char) : ∀ (p tok : Str), c ∉ tok →
    splitOn c (p ++ c :: tok) = splitOn c p ++ [tok]
  | [], tok, h => by
    simp only [List.nil_append]
    rw [splitOn_cons_eq c tok, splitOn_no_sep c tok h]
    rfl
  | x :: p, tok, h => by
    have hrec := splitOn_append_tok c p tok h
    by_cases hx : x = c
    · subst hx
      rw [show (x :: p) ++ x :: tok = x :: (p ++ x :: tok) from rfl]
      rw [splitOn_cons_eq x (p ++ x :: tok), splitOn_cons_eq x p, hrec]
      rfl
    · obtain ⟨s, rest, hsr⟩ : ∃ s rest, splitOn c p = s :: rest := by
        cases hh : splitOn c p with
        | nil => exact absurd hh (splitOn_ne_nil c p)
        | cons s rest => exact ⟨s, rest, rfl⟩
      have h1 : splitOn c (p ++ c :: tok) = s :: (rest ++ [tok]) := by
        rw [hrec, hsr]
        rfl
      rw [show (x :: p) ++ c :: tok = x :: (p ++ c :: tok) from rfl]
      rw [splitOn_cons_ne c x (p ++ c :: tok) hx s (rest ++ [tok]) h1]
      rw [splitOn_cons_ne c x p hx s rest hsr]
      rfl

theorem tokenMatches_unrecognized {sub : Str} (h : recognizedToken sub = false)
    (w : List Str) : tokenMatches sub w = [] := by
  unfold recognizedToken at h
  simp only [Bool.or_eq_false_iff, decide_eq_false_iff_not] at h
  obtain ⟨⟨⟨h8, h2⟩, h4⟩, hw⟩ := h
  unfold tokenMatches
  rw [if_neg (by simp [h8]), if_neg (by simp [h2]), if_neg (by simp [h4]), if_neg hw]

/-! ### Claim theorems for the pattern resolver -/

/-- Claim C3: for every pattern string and every anchor date (valid and far
enough from the year bound of the date type), `get_days_for_pattern` returns
a subset of the 7-date window starting at the anchor, strictly sorted
ascending in the code point order, with no duplicates. -/
theorem get_days_for_pattern_subset_sorted (p : Str) (dt : Date) (hv : dt.Valid)
    (hy : dt.year ≤ 9992) :
    (∀ s ∈ get_days_for_pattern p dt, s ∈ all_week_as_string dt) ∧
    List.Pairwise (fun a b => lexLt a b = true) (get_days_for_pattern p dt) ∧
    (get_days_for_pattern p dt).Nodup := by
  simp only [get_days_for_pattern]
  split_ifs with h
  · exact ⟨fun s hs => hs, all_week_pairwise hv hy,
      nodup_of_pairwise_lexLt (all_week_pairwise hv hy)⟩
  · refine ⟨?_, sortedDedup_pairwise _, sortedDedup_nodup _⟩
    intro s hs
    have hm := mem_sortedDedup.mp hs
    rcases (mem_foldl_matches
        (fun sub => tokenMatches (toLowerStr (stripStr sub)) (all_week_as_string dt))
        (splitOn ',' p) [] s).mp hm with h0 | ⟨t, _, hmm⟩
    · exact absurd h0 (List.not_mem_nil s)
    · exact tokenMatches_subset hmm

/-- Witness for claim C3 at a concrete pattern and date. -/
theorem get_days_for_pattern_subset_sorted_witness :
    (∀ s ∈ get_days_for_pattern (str "sat,21,0621,mon,wed") ⟨2025, 6, 21⟩,
        s ∈ all_week_as_string ⟨2025, 6, 21⟩) ∧
    List.Pairwise (fun a b => lexLt a b = true)
      (get_days_for_pattern (str "sat,21,0621,mon,wed") ⟨2025, 6, 21⟩) ∧
    (get_days_for_pattern (str "sat,21,0621,mon,wed") ⟨2025, 6, 21⟩).Nodup :=
  get_days_for_pattern_subset_sorted (str "sat,21,0621,mon,wed") ⟨2025, 6, 21⟩
    (by decide) (by decide)

/-- Claim C1 counterexample: resolving the comma-joined pattern `mon,*`
anchored on 2025-01-01 yields only the Monday of the window, not the full
7-day window, so a `*` token inside a comma-joined pattern does not match
every day. -/
theorem get_days_star_token_counterexample :
    get_days_for_pattern (str "mon,*") ⟨2025, 1, 1⟩ = [str "2025-01-06"] ∧
    get_days_for_pattern (str "mon,*") ⟨2025, 1, 1⟩ ≠ all_week_as_string ⟨2025, 1, 1⟩ := by
  exact ⟨by decide, by decide⟩

/-- Claim C1 (amended): for a pattern that is not the whole-pattern special
case, the resolved set is exactly the union of the per-token matches; the
empty pattern and the sole `*` pattern resolve to the whole window, but an
empty or `*` token inside a comma-joined pattern contributes no days. -/
theorem get_days_for_pattern_token_union (p : Str) (dt : Date)
    (h1 : p ≠ []) (h2 : p ≠ ['*']) :
    (∀ s, s ∈ get_days_for_pattern p dt ↔
      ∃ t ∈ splitOn ',' p,
        s ∈ tokenMatches (toLowerStr (stripStr t)) (all_week_as_string dt)) ∧
    get_days_for_pattern [] dt = all_week_as_string dt ∧
    get_days_for_pattern ['*'] dt = all_week_as_string dt ∧
    (∀ w, tokenMatches (toLowerStr (stripStr [])) w = []) ∧
    (∀ w, tokenMatches (toLowerStr (stripStr ['*'])) w = []) := by
  refine ⟨?_, rfl, rfl, fun w => tokenMatches_unrecognized (by decide) w,
    fun w => tokenMatches_unrecognized (by decide) w⟩
  intro s
  have hne : ¬(p = [] ∨ p = ['*']) := by
    rintro (he | he)
    · exact h1 he
    · exact h2 he
  simp only [get_days_for_pattern]
  rw [if_neg hne]
  rw [mem_sortedDedup]
  rw [mem_foldl_matches
    (fun sub => tokenMatches (toLowerStr (stripStr sub)) (all_week_as_string dt))
    (splitOn ',' p) [] s]
  simp

/-- Witness for the amended claim C1 at the counterexample input. -/
theorem get_days_for_pattern_token_union_witness :
    (∀ s, s ∈ get_days_for_pattern (str "mon,*") ⟨2025, 1, 1⟩ ↔
      ∃ t ∈ splitOn ',' (str "mon,*"),
        s ∈ tokenMatches (toLowerStr (stripStr t)) (all_week_as_string ⟨2025, 1, 1⟩)) ∧
    get_days_for_pattern [] ⟨2025, 1, 1⟩ = all_week_as_string ⟨2025, 1, 1⟩ ∧
    get_days_for_pattern ['*'] ⟨2025, 1, 1⟩ = all_week_as_string ⟨2025, 1, 1⟩ ∧
    (∀ w, tokenMatches (toLowerStr (stripStr [])) w = []) ∧
    (∀ w, tokenMatches (toLowerStr (stripStr ['*'])) w = []) :=
  get_days_for_pattern_token_union (str "mon,*") ⟨2025, 1, 1⟩ (by decide) (by decide)

/-- Claim C8: the matcher is total by construction, and an unrecognised
token contributes no dates: appending it to a comma-joined pattern leaves
the resolved set unchanged. -/
theorem get_days_for_pattern_ignores_unrecognized (p tok : Str) (dt : Date)
    (h1 : p ≠ []) (h2 : p ≠ ['*']) (h3 : ',' ∉ tok)
    (h4 : recognizedToken (toLowerStr (stripStr tok)) = false) :
    (∀ w, tokenMatches (toLowerStr (stripStr tok)) w = []) ∧
    get_days_for_pattern (p ++ ',' :: tok) dt = get_days_for_pattern p dt := by
  refine ⟨fun w => tokenMatches_unrecognized h4 w, ?_⟩
  have hne2 : ¬(p = [] ∨ p = ['*']) := by
    rintro (he | he)
    · exact h1 he
    · exact h2 he
  have hne1 : ¬(p ++ ',' :: tok = [] ∨ p ++ ',' :: tok = ['*']) := by
    rintro (he | he)
    · rcases p with _ | ⟨a, q⟩
      · exact h1 rfl
      · simp at he
    · have hl := congrArg List.length he
      rcases p with _ | ⟨a, q⟩
      · exact h1 rfl
      · simp at hl
  simp only [get_days_for_pattern]
  rw [if_neg hne1, if_neg hne2]
  rw [splitOn_append_tok ',' p tok h3]
  rw [List.foldl_append]
  simp only [List.foldl_cons, List.foldl_nil]
  rw [tokenMatches_unrecognized h4]
  rw [List.append_nil]

/-- Witness for claim C8 at a malformed token. -/
theorem get_days_for_pattern_ignores_unrecognized_witness :
    (∀ w, tokenMatches (toLowerStr (stripStr (str "bogus!"))) w = []) ∧
    get_days_for_pattern (str "mon" ++ ',' :: str "bogus!") ⟨2025, 1, 1⟩ =
      get_days_for_pattern (str "mon") ⟨2025, 1, 1⟩ :=
  get_days_for_pattern_ignores_unrecognized (str "mon") (str "bogus!") ⟨2025, 1, 1⟩
    (by decide) (by decide) (by decide) (by decide)

/-! ### Claim theorems for the task line split -/

theorem splitFirst_no_sep (sep : Char) : ∀ (line : Str), sep ∉ line →
    splitFirst sep line = none
  | [], _ => rfl
  | c :: cs, h => by
    have hc : ¬ c = sep := fun he => h (by simp [he])
    have hrec := splitFirst_no_sep sep cs (fun hm => h (List.mem_cons_of_mem _ hm))
    simp [splitFirst, hc, hrec]

theorem splitFirst_first (sep : Char) : ∀ (pre post : Str), sep ∉ pre →
    splitFirst sep (pre ++ sep :: post) = some (pre, post)
  | [], post, _ => by simp [splitFirst]
  | c :: pre, post, h => by
    have hc : ¬ c = sep := fun he => h (by simp [he])
    have hrec := splitFirst_first sep pre post (fun hm => h (List.mem_cons_of_mem _ hm))
    simp [splitFirst, hc, hrec]

/-- Claim C7: a task line is split at the first colon into a pattern and a
task text, so later colons stay in the text; a line without a colon is a
task with the empty pattern, which resolves to every day of the window; and
the concrete example from the design document holds. -/
theorem parseTaskLine_first_colon (today : Date) :
    (∀ pre post, ':' ∉ pre →
      parseTaskLine (pre ++ ':' :: post) today =
        (get_days_for_pattern (stripStr pre) today, stripStr post)) ∧
    (∀ line, ':' ∉ line →
      parseTaskLine line today = (all_week_as_string today, line)) ∧
    parseTaskLine (str "mon:Put out the: bins") ⟨2025, 2, 28⟩ =
      ([str "2025-03-03"], str "Put out the: bins") := by
  refine ⟨?_, ?_, by decide⟩
  · intro pre post hp
    simp [parseTaskLine, splitFirst_first ':' pre post hp]
  · intro line hl
    simp [parseTaskLine, splitFirst_no_sep ':' line hl]
    rfl

/-- Witness for claim C7 at concrete lines, discharging the colon-freeness
hypotheses. -/
theorem parseTaskLine_first_colon_witness :
    (':' ∉ str "mon") ∧
    parseTaskLine (str "mon" ++ ':' :: str "Put out the: bins") ⟨2025, 2, 28⟩ =
      (get_days_for_pattern (stripStr (str "mon")) ⟨2025, 2, 28⟩,
       stripStr (str "Put out the: bins")) ∧
    (':' ∉ str "Walk the dog") ∧
    parseTaskLine (str "Walk the dog") ⟨2025, 2, 28⟩ =
      (all_week_as_string ⟨2025, 2, 28⟩, str "Walk the dog") :=
  ⟨by decide,
   (parseTaskLine_first_colon ⟨2025, 2, 28⟩).1 (str "mon") (str "Put out the: bins") (by decide),
   by decide,
   (parseTaskLine_first_colon ⟨2025, 2, 28⟩).2.1 (str "Walk the dog") (by decide)⟩

/-! ### Claim theorems for the tasks section renderer -/

theorem output_tasks_go (day : Str) :
    ∀ (l : List (List Str × Str)) (acc : List Str),
      l.foldl (fun acc td => if day ∈ td.1 then acc ++ [str "- [ ] " ++ td.2] else acc) acc =
        acc ++ (l.filter (fun td => decide (day ∈ td.1))).map (fun td => str "- [ ] " ++ td.2)
  | [], acc => by simp
  | td :: l, acc => by
    simp only [List.foldl_cons, List.filter_cons]
    by_cases h : day ∈ td.1
    · rw [if_pos h]
      rw [output_tasks_go day l (acc ++ [str "- [ ] " ++ td.2])]
      simp [h]
    · rw [if_neg h]
      rw [output_tasks_go day l acc]
      simp [h]

/-- The checklist lines are the tasks scheduled for the day, filtered in
configuration order. -/
theorem output_tasks_filter (config : NoteManagerConfig) (day : Str) :
    output_tasks_for_day config day =
      (config.task_list_for_day.filter (fun td => decide (day ∈ td.1))).map
        (fun td => str "- [ ] " ++ td.2) := by
  unfold output_tasks_for_day
  rw [output_tasks_go day config.task_list_for_day []]
  rfl

/-- Claim C5: rendering the tasks section emits the header, an informational
line reporting the size of the incomplete set, then exactly one checklist
line per scheduled task whose resolved dates contain the date of the file,
in configuration order; when none match, the single sentinel line instead. -/
theorem render_section_tasks (config : NoteManagerConfig) (incomplete : List Str)
    (file_date : Date) (name content : Str) (hname : isTasksName name = true)
    (_hnodup : incomplete.Nodup) :
    render_section config incomplete file_date (name, content) =
      (if name ≠ [] then name ++ ['\n'] else [])
      ++ (str "At the last calculation there were " ++ natToStr incomplete.length
          ++ str " [[incomplete tasks]]." ++ ['\n'])
      ++ (if (config.task_list_for_day.filter
              (fun td => decide (toIso file_date ∈ td.1))) = [] then
            str "- [ ] No tasks for today" ++ ['\n']
          else
            joinNL ((config.task_list_for_day.filter
                (fun td => decide (toIso file_date ∈ td.1))).map
              (fun td => str "- [ ] " ++ td.2)) ++ ['\n']) := by
  unfold render_section
  rw [if_pos hname]
  rw [output_tasks_filter config (toIso file_date)]
  cases hf : config.task_list_for_day.filter (fun td => decide (toIso file_date ∈ td.1)) with
  | nil => simp [List.append_assoc]
  | cons td rest => simp [List.append_assoc]

/-- Witness for claim C5 at the configuration of the repository test. -/
theorem render_section_tasks_witness :
    isTasksName (str "# Tasks") = true ∧
    ([str "a", str "b", str "c", str "d"] : List Str).Nodup ∧
    render_section
      ⟨[([str "2025-02-27"], str "Walk the dog"),
        ([str "2025-01-02"], str "Clean the house"),
        ([str "2025-02-27", str "2025-01-31"], str "Buy groceries")], []⟩
      [str "a", str "b", str "c", str "d"] ⟨2025, 2, 27⟩ (str "# Tasks", str "") =
      (if str "# Tasks" ≠ [] then str "# Tasks" ++ ['\n'] else [])
      ++ (str "At the last calculation there were "
          ++ natToStr ([str "a", str "b", str "c", str "d"] : List Str).length
          ++ str " [[incomplete tasks]]." ++ ['\n'])
      ++ (if ((⟨[([str "2025-02-27"], str "Walk the dog"),
              ([str "2025-01-02"], str "Clean the house"),
              ([str "2025-02-27", str "2025-01-31"], str "Buy groceries")], []⟩ :
                NoteManagerConfig).task_list_for_day.filter
              (fun td => decide (toIso ⟨2025, 2, 27⟩ ∈ td.1))) = [] then
            str "- [ ] No tasks for today" ++ ['\n']
          else
            joinNL (((⟨[([str "2025-02-27"], str "Walk the dog"),
                ([str "2025-01-02"], str "Clean the house"),
                ([str "2025-02-27", str "2025-01-31"], str "Buy groceries")], []⟩ :
                  NoteManagerConfig).task_list_for_day.filter
                (fun td => decide (toIso ⟨2025, 2, 27⟩ ∈ td.1))).map
              (fun td => str "- [ ] " ++ td.2)) ++ ['\n']) :=
  ⟨by decide, by decide,
   render_section_tasks
     ⟨[([str "2025-02-27"], str "Walk the dog"),
       ([str "2025-01-02"], str "Clean the house"),
       ([str "2025-02-27", str "2025-01-31"], str "Buy groceries")], []⟩
     [str "a", str "b", str "c", str "d"] ⟨2025, 2, 27⟩ (str "# Tasks") (str "")
     (by decide) (by decide)⟩

/-! ### Claim theorems for literal content rendering -/

theorem renderContentLine_plain (file_date : Date) (line : Str)
    (h1 : containsSub dowToken line = false)
    (h2 : strStarts (str "countdown:") line = false) :
    renderContentLine file_date line = line := by
  unfold renderContentLine applyDow
  rw [if_neg (show ¬ containsSub dowToken line = true by simp [h1])]
  rw [if_neg (show ¬ strStarts (str "countdown:") line = true by simp [h2])]

theorem map_self_of_fix {f : Str → Str} : ∀ {l : List Str}, (∀ a ∈ l, f a = a) → l.map f = l
  | [], _ => rfl
  | x :: xs, h => by
    simp only [List.map_cons]
    rw [h x (by simp), map_self_of_fix (fun a ha => h a (List.mem_cons_of_mem _ ha))]

theorem splitOn_joinNL : ∀ (ls : List Str), (∀ l ∈ ls, '\n' ∉ l) → ls ≠ [] →
    splitOn '\n' (joinNL ls) = ls
  | [], _, h => absurd rfl h
  | [x], hf, _ => by
    simp only [joinNL]
    exact splitOn_no_sep '\n' x (hf x (by simp))
  | x :: y :: ys, hf, _ => by
    simp only [joinNL]
    rw [splitOn_sep_append '\n' x (joinNL (y :: ys)) (hf x (by simp))]
    rw [splitOn_joinNL (y :: ys) (fun l hl => hf l (List.mem_cons_of_mem _ hl)) (by simp)]

/-- Claim C2 counterexample: two consecutive plain content lines are
concatenated on one output line rather than kept on separate lines, and a
non-task section with empty content gets no trailing blank line. -/
theorem render_section_concat_counterexample :
    render_section ⟨[], []⟩ [] ⟨2025, 2, 27⟩ (str "# H", str "a\nb") = str "# H\nab\n\n" ∧
    render_section ⟨[], []⟩ [] ⟨2025, 2, 27⟩ (str "# H", str "a\nb") ≠ str "# H\na\nb\n\n" ∧
    render_section ⟨[], []⟩ [] ⟨2025, 2, 27⟩ (str "# H", str "") = str "# H\n" ∧
    render_section ⟨[], []⟩ [] ⟨2025, 2, 27⟩ (str "# H", str "") ≠ str "# H\n\n\n" :=
  ⟨by decide, by decide, by decide, by decide⟩

/-- Claim C2 (amended): for a non-task section with non-empty content built
from plain lines, rendering emits the header, then the lines concatenated
with no separators between them, then one blank line; a non-task section
with empty content emits only its header line and no trailing blank. -/
theorem render_section_plain_lines (config : NoteManagerConfig) (incomplete : List Str)
    (file_date : Date) (name : Str) (lines : List Str)
    (hname : isTasksName name = false) (hnn : name ≠ [])
    (hl : ∀ l ∈ lines, '\n' ∉ l ∧ containsSub dowToken l = false ∧
      strStarts (str "countdown:") l = false)
    (hne : lines ≠ []) (hj : joinNL lines ≠ []) :
    render_section config incomplete file_date (name, joinNL lines) =
      name ++ '\n' :: (lines.foldr (· ++ ·) [] ++ '\n' :: ['\n']) ∧
    render_section config incomplete file_date (name, []) = name ++ ['\n'] := by
  constructor
  · have hcontent : (splitOn '\n' (joinNL lines)).map (renderContentLine file_date) = lines := by
      rw [splitOn_joinNL lines (fun l hl2 => (hl l hl2).1) hne]
      exact map_self_of_fix
        (fun a ha => renderContentLine_plain file_date a (hl a ha).2.1 (hl a ha).2.2)
    unfold render_section
    dsimp only
    rw [if_pos hnn, if_neg (by simp [hname]), if_pos hj, hcontent]
    simp [List.append_assoc]
  · unfold render_section
    dsimp only
    rw [if_pos hnn, if_neg (by simp [hname]), if_neg (by simp)]
    simp

/-- Witness for the amended claim C2 at a concrete two-line section. -/
theorem render_section_plain_lines_witness :
    isTasksName (str "# H") = false ∧ (str "# H" ≠ []) ∧
    (render_section ⟨[], []⟩ [] ⟨2025, 2, 27⟩ (str "# H", joinNL [str "a", str "b"]) =
      str "# H" ++ '\n' :: (([str "a", str "b"] : List Str).foldr (· ++ ·) [] ++ '\n' :: ['\n']) ∧
    render_section ⟨[], []⟩ [] ⟨2025, 2, 27⟩ (str "# H", []) = str "# H" ++ ['\n']) :=
  ⟨by decide, by decide,
   render_section_plain_lines ⟨[], []⟩ [] ⟨2025, 2, 27⟩ (str "# H") [str "a", str "b"]
     (by decide) (by decide) (by decide) (by decide) (by decide)⟩

/-- Claim C10: a content line starting with the countdown prefix whose body
has no date-comma match renders to nothing: no text is emitted for it and
no error path exists. -/
theorem renderContentLine_countdown_drop (file_date : Date) (line : Str)
    (h1 : strStarts (str "countdown:") (applyDow file_date line) = true)
    (h2 : searchIsoComma ((applyDow file_date line).drop 10) = none) :
    renderContentLine file_date line = [] := by
  unfold renderContentLine
  rw [if_pos h1, h2]

/-- Witness for claim C10 at a concrete malformed countdown line. -/
theorem renderContentLine_countdown_drop_witness :
    strStarts (str "countdown:") (applyDow ⟨2025, 2, 27⟩ (str "countdown:not a date")) = true ∧
    searchIsoComma ((applyDow ⟨2025, 2, 27⟩ (str "countdown:not a date")).drop 10) = none ∧
    renderContentLine ⟨2025, 2, 27⟩ (str "countdown:not a date") = [] :=
  ⟨by decide, by decide,
   renderContentLine_countdown_drop ⟨2025, 2, 27⟩ (str "countdown:not a date")
     (by decide) (by decide)⟩

/-! ### Lemmas for the carry-forward round trip -/

theorem natToStrAux_digits : ∀ (fuel n : Nat) (c : Char), c ∈ natToStrAux fuel n →
    48 ≤ c.toNat ∧ c.toNat ≤ 57
  | 0, _, _, h => by simp [natToStrAux] at h
  | fuel + 1, n, c, h => by
    simp only [natToStrAux] at h
    split_ifs at h with hn
    · simp at h
      subst h
      rw [digitChar_toNat]
      omega
    · rcases List.mem_append.mp h with h1 | h2
      · exact natToStrAux_digits fuel (n / 10) c h1
      · simp at h2
        subst h2
        rw [digitChar_toNat]
        omega

theorem natToStr_digits {n : Nat} {c : Char} (h : c ∈ natToStr n) :
    48 ≤ c.toNat ∧ c.toNat ≤ 57 :=
  natToStrAux_digits (n + 1) n c h

theorem natToStr_no_newline (n : Nat) : '\n' ∉ natToStr n := by
  intro h
  have := natToStr_digits h
  simp at this

theorem isPySpace_digit {c : Char} (h : 48 ≤ c.toNat ∧ c.toNat ≤ 57) :
    isPySpace c = false := by
  simp only [isPySpace, Bool.or_eq_false_iff, Bool.and_eq_false_iff,
    beq_eq_false_iff_ne, decide_eq_false_iff_not, ne_eq, not_le]
  omega

theorem dropWhile_length_le (p : Char → Bool) : ∀ (l : Str),
    (l.dropWhile p).length ≤ l.length
  | [] => le_refl _
  | c :: t => by
    rw [List.dropWhile_cons]
    split_ifs
    · have := dropWhile_length_le p t
      simp only [List.length_cons]
      omega
    · exact le_refl _

theorem dropWhile_eq_self_of_length (p : Char → Bool) : ∀ (l : Str),
    (l.dropWhile p).length = l.length → l.dropWhile p = l
  | [], _ => rfl
  | c :: t, h => by
    rw [List.dropWhile_cons] at h ⊢
    split_ifs at h ⊢ with hc
    · have := dropWhile_length_le p t
      simp only [List.length_cons] at h
      omega
    · rfl

theorem head_not_space_of_dropWhile_fix {p : Char → Bool} {c : Char} {t : Str}
    (h : (c :: t).dropWhile p = c :: t) : p c = false := by
  rw [List.dropWhile_cons] at h
  split_ifs at h with hc
  · have h1 := dropWhile_length_le p t
    have h2 := congrArg List.length h
    simp only [List.length_cons] at h2
    omega
  · simpa using hc

theorem stripStr_eq_of {s : Str} (h1 : s.dropWhile isPySpace = s)
    (h2 : s.reverse.dropWhile isPySpace = s.reverse) : stripStr s = s := by
  unfold stripStr
  rw [h1, h2, List.reverse_reverse]

theorem stripStr_fix_parts {t : Str} (h : stripStr t = t) :
    t.dropWhile isPySpace = t ∧ t.reverse.dropWhile isPySpace = t.reverse := by
  unfold stripStr at h
  have hlen := congrArg List.length h
  have l1 := dropWhile_length_le isPySpace t
  have l2 := dropWhile_length_le isPySpace (t.dropWhile isPySpace).reverse
  simp only [List.length_reverse] at hlen l2
  have hu : t.dropWhile isPySpace = t :=
    dropWhile_eq_self_of_length isPySpace t (by omega)
  refine ⟨hu, ?_⟩
  rw [hu] at h
  have := congrArg List.reverse h
  rw [List.reverse_reverse] at this
  rw [this]

theorem takeWhile_all (p : Char → Bool) : ∀ (l : Str), (∀ c ∈ l, p c = true) →
    l.takeWhile p = l
  | [], _ => rfl
  | c :: t, h => by
    rw [List.takeWhile_cons, if_pos (h c (by simp))]
    rw [takeWhile_all p t (fun c hc => h c (List.mem_cons_of_mem _ hc))]

theorem stripStr_checklist {t : Str} (ht : stripStr t = t) (hne : t ≠ []) :
    stripStr (str "- [ ] " ++ t) = str "- [ ] " ++ t := by
  obtain ⟨hfixL, hfixR⟩ := stripStr_fix_parts ht
  apply stripStr_eq_of
  · rw [show str "- [ ] " ++ t = '-' :: (str " [ ] " ++ t) from rfl]
    rw [List.dropWhile_cons, if_neg (by decide)]
  · rw [List.reverse_append]
    cases hrev : t.reverse with
    | nil => exact absurd (by simpa using congrArg List.reverse hrev) hne
    | cons c r =>
      rw [hrev] at hfixR
      have hc := head_not_space_of_dropWhile_fix hfixR
      rw [List.cons_append, List.dropWhile_cons, if_neg (by simp [hc])]

theorem getTask_checklist {t : Str} (ht : stripStr t = t) (hne : t ≠ []) (hnl : '\n' ∉ t) :
    get_task_if_task_line (str "- [ ] " ++ t) = some t := by
  have htw : t.takeWhile (fun c => decide (c ≠ '\n')) = t :=
    takeWhile_all _ t (fun c hc => by
      simp only [decide_eq_true_eq, ne_eq]
      exact fun he => hnl (he ▸ hc))
  rw [show str "- [ ] " ++ t = '-' :: ' ' :: '[' :: ' ' :: ']' :: ' ' :: t from rfl]
  simp only [get_task_if_task_line]
  rw [htw]
  cases t with
  | nil => exact absurd rfl hne
  | cons c r =>
    rw [if_pos (by simp [List.isEmpty_cons, isPySpace])]
    rw [ht]

theorem stripStr_header (d : Date) : stripStr (incompleteHeader d) = incompleteHeader d := by
  apply stripStr_eq_of
  · rw [show incompleteHeader d = 'I' :: (str "ncomplete task list updated on "
      ++ natToStr d.day ++ str "/" ++ natToStr d.month ++ str "/" ++ natToStr d.year
      ++ str ":") from rfl]
    rw [List.dropWhile_cons, if_neg (by decide)]
  · rw [show incompleteHeader d = (str "Incomplete task list updated on "
      ++ natToStr d.day ++ str "/" ++ natToStr d.month ++ str "/" ++ natToStr d.year)
      ++ [':'] from rfl]
    rw [List.reverse_append]
    rw [show ([':'] : Str).reverse = [':'] from rfl]
    rw [List.cons_append, List.dropWhile_cons, if_neg (by decide)]

theorem getTask_header (d : Date) :
    get_task_if_task_line (stripStr (incompleteHeader d)) = none := by
  rw [stripStr_header]
  rw [show incompleteHeader d = 'I' :: 'n' :: 'c' :: 'o' :: 'm' :: 'p'
      :: (str "lete task list updated on " ++ natToStr d.day ++ str "/"
        ++ natToStr d.month ++ str "/" ++ natToStr d.year ++ str ":") from rfl]
  simp only [get_task_if_task_line]
  simp

theorem header_no_newline (d : Date) : '\n' ∉ incompleteHeader d := by
  intro h
  simp only [incompleteHeader, List.mem_append] at h
  rcases h with ((((((h1 | h2) | h3) | h4) | h5) | h6) | h7)
  · exact absurd h1 (by decide)
  · exact natToStr_no_newline d.day h2
  · exact absurd h3 (by decide)
  · exact natToStr_no_newline d.month h4
  · exact absurd h5 (by decide)
  · exact natToStr_no_newline d.year h6
  · exact absurd h7 (by decide)

theorem harvest_go : ∀ (ls : List Str) (acc : List Str),
    List.foldl (fun acc line =>
      match get_task_if_task_line (stripStr line) with
      | some t => acc ++ [t]
      | none => acc) acc ls = acc ++ harvestLines ls
  | [], acc => by simp [harvestLines]
  | x :: ls, acc => by
    simp only [harvestLines, List.foldl_cons]
    cases hx : get_task_if_task_line (stripStr x) with
    | none =>
      rw [harvest_go ls acc, harvest_go ls []]
      simp
    | some t =>
      rw [harvest_go ls (acc ++ [t]), harvest_go ls ([] ++ [t])]
      simp

theorem harvestLines_cons (x : Str) (ls : List Str) :
    harvestLines (x :: ls) =
      (match get_task_if_task_line (stripStr x) with
        | some t => [t]
        | none => []) ++ harvestLines ls := by
  show List.foldl _ _ (x :: ls) = _
  simp only [List.foldl_cons]
  cases hx : get_task_if_task_line (stripStr x) with
  | none => rw [harvest_go ls []]; try simp
  | some t => rw [harvest_go ls ([] ++ [t])]; try simp

theorem harvestLines_append (l1 l2 : List Str) :
    harvestLines (l1 ++ l2) = harvestLines l1 ++ harvestLines l2 := by
  show List.foldl _ _ (l1 ++ l2) = _
  rw [List.foldl_append]
  rw [show List.foldl _ [] l1 = harvestLines l1 from rfl]
  exact harvest_go l2 (harvestLines l1)

theorem harvest_taskLines : ∀ (ts : List Str),
    (∀ t ∈ ts, t ≠ [] ∧ '\n' ∉ t ∧ stripStr t = t) →
    harvestLines (ts.map (fun t => str "- [ ] " ++ t)) = ts
  | [], _ => rfl
  | t :: ts, h => by
    simp only [List.map_cons]
    rw [harvestLines_cons]
    obtain ⟨h1, h2, h3⟩ := h t (by simp)
    rw [stripStr_checklist h3 h1, getTask_checklist h3 h1 h2]
    rw [harvest_taskLines ts (fun u hu => h u (List.mem_cons_of_mem _ hu))]
    rfl

theorem splitOn_taskBlock : ∀ (ts : List Str), (∀ t ∈ ts, '\n' ∉ t) →
    splitOn '\n' (ts.foldr (fun t acc => str "- [ ] " ++ t ++ '\n' :: acc) []) =
      ts.map (fun t => str "- [ ] " ++ t) ++ [[]]
  | [], _ => rfl
  | t :: ts, h => by
    simp only [List.foldr_cons, List.map_cons]
    have hno : '\n' ∉ str "- [ ] " ++ t := by
      intro hm
      rcases List.mem_append.mp hm with hm | hm
      · exact absurd hm (by decide)
      · exact h t (by simp) hm
    rw [splitOn_sep_append '\n' (str "- [ ] " ++ t) _ hno]
    rw [splitOn_taskBlock ts (fun u hu => h u (List.mem_cons_of_mem _ hu))]
    rfl

/-- Claim C9: the carry-forward document round-trips. Writing a set of
trimmed, newline-free, non-empty task texts and harvesting the written file
returns exactly that set (as the sorted deduplicated list); the header and
the empty-set sentinel are never harvested as tasks. -/
theorem write_harvest_round_trip (S : List Str) (d : Date)
    (hS : ∀ t ∈ S, t ≠ [] ∧ '\n' ∉ t ∧ stripStr t = t) :
    process_incomplete_task_file (write_incomplete_tasks_to_file S d) = sortedDedup S ∧
    (∀ t, t ∈ process_incomplete_task_file (write_incomplete_tasks_to_file S d) ↔ t ∈ S) ∧
    process_incomplete_task_file (write_incomplete_tasks_to_file [] d) = [] := by
  have hmain : ∀ (T : List Str), (∀ t ∈ T, t ≠ [] ∧ '\n' ∉ t ∧ stripStr t = t) →
      process_incomplete_task_file (write_incomplete_tasks_to_file T d) = sortedDedup T := by
    intro T hT
    unfold process_incomplete_task_file write_incomplete_tasks_to_file
    by_cases hTe : T = []
    · subst hTe
      rw [if_neg (by simp)]
      rw [splitOn_sep_append '\n' (incompleteHeader d) _ (header_no_newline d)]
      rw [splitOn_cons_eq]
      rw [show (str "No incomplete tasks found." ++ ['\n'] : Str)
          = str "No incomplete tasks found." ++ '\n' :: [] from rfl]
      rw [splitOn_sep_append '\n' (str "No incomplete tasks found.") [] (by decide)]
      rw [harvestLines_cons, harvestLines_cons, harvestLines_cons]
      rw [getTask_header]
      rw [show get_task_if_task_line (stripStr (str "No incomplete tasks found.")) = none
          from by decide]
      simp [harvestLines, sortedDedup, splitOn,
        show get_task_if_task_line (stripStr []) = none from rfl]
    · rw [if_pos hTe]
      rw [splitOn_sep_append '\n' (incompleteHeader d) _ (header_no_newline d)]
      rw [splitOn_cons_eq]
      rw [splitOn_taskBlock (sortedDedup T) (fun t ht => (hT t (mem_sortedDedup.mp ht)).2.1)]
      rw [harvestLines_cons, harvestLines_cons, harvestLines_append]
      rw [getTask_header]
      rw [harvest_taskLines (sortedDedup T) (fun t ht => hT t (mem_sortedDedup.mp ht))]
      simp [harvestLines, show get_task_if_task_line (stripStr []) = none from rfl]
  refine ⟨hmain S hS, fun t => ?_, ?_⟩
  · rw [hmain S hS, mem_sortedDedup]
  · have h0 := hmain [] (by simp)
    simpa [sortedDedup] using h0

/-- Witness for claim C9 at the concrete set of the repository test. -/
theorem write_harvest_round_trip_witness :
    (∀ t ∈ ([str "Task 3", str "Task 1"] : List Str),
        t ≠ [] ∧ '\n' ∉ t ∧ stripStr t = t) ∧
    (process_incomplete_task_file
        (write_incomplete_tasks_to_file [str "Task 3", str "Task 1"] ⟨2025, 6, 7⟩) =
      sortedDedup [str "Task 3", str "Task 1"] ∧
    (∀ t, t ∈ process_incomplete_task_file
        (write_incomplete_tasks_to_file [str "Task 3", str "Task 1"] ⟨2025, 6, 7⟩) ↔
      t ∈ ([str "Task 3", str "Task 1"] : List Str)) ∧
    process_incomplete_task_file (write_incomplete_tasks_to_file [] ⟨2025, 6, 7⟩) = []) :=
  ⟨by decide,
   write_harvest_round_trip [str "Task 3", str "Task 1"] ⟨2025, 6, 7⟩ (by decide)⟩

/-! ### Lemmas about the rotation pipeline -/

theorem memName_filter_ne {n f : Str} (hne : n ≠ f) : ∀ (l : List (Str × List Str)),
    memName n (l.filter (fun p => !(p.1 == f))) = memName n l
  | [] => rfl
  | e :: l => by
    rw [List.filter_cons]
    by_cases he : e.1 = f
    · rw [if_neg (by simp [he])]
      have hen : (e.1 == n) = false := by
        simp only [beq_eq_false_iff_ne, ne_eq]
        rw [he]
        exact fun hc => hne hc.symm
      simp only [memName, List.any_cons, hen, Bool.false_or]
      exact memName_filter_ne hne l
    · rw [if_pos (by simp [he])]
      simp only [memName, List.any_cons]
      have := memName_filter_ne hne l
      simp only [memName] at this
      rw [this]

theorem memName_filter_self (f : Str) : ∀ (l : List (Str × List Str)),
    memName f (l.filter (fun p => !(p.1 == f))) = false
  | [] => rfl
  | e :: l => by
    rw [List.filter_cons]
    by_cases he : e.1 = f
    · rw [if_neg (by simp [he])]
      exact memName_filter_self f l
    · rw [if_pos (by simp [he])]
      simp only [memName, List.any_cons]
      have := memName_filter_self f l
      simp only [memName] at this
      rw [this]
      simp [he]

theorem memName_filter_false {n : Str} {l : List (Str × List Str)}
    (h : memName n l = false) (p : (Str × List Str) → Bool) :
    memName n (l.filter p) = false := by
  induction l with
  | nil => rfl
  | cons e l ih =>
    simp only [memName, List.any_cons, Bool.or_eq_false_iff] at h
    rw [List.filter_cons]
    split_ifs
    · simp only [memName, List.any_cons, h.1, Bool.false_or]
      exact ih h.2
    · exact ih h.2

/-- Frame: rotating one file only touches entries of that name. -/
theorem rotateOne_frame {n f : Str} (hne : n ≠ f) {fs fs1 : NotesFS} {tasks : List Str}
    (h : rotateOne f fs = .ok (fs1, tasks)) :
    memName n fs1.live = memName n fs.live ∧
    memName n fs1.backup = memName n fs.backup ∧
    memName n fs1.archive = memName n fs.archive := by
  unfold rotateOne at h
  cases hl : lookupDoc fs.live f with
  | none => rw [hl] at h; exact absurd h (by simp)
  | some lines =>
    rw [hl] at h
    simp only [Except.ok.injEq, Prod.mk.injEq] at h
    obtain ⟨hfs, -⟩ := h
    subst hfs
    have hfn : (f == n) = false := by
      simp only [beq_eq_false_iff_ne, ne_eq]
      exact fun hc => hne hc.symm
    refine ⟨memName_filter_ne hne fs.live, ?_, ?_⟩
    · simp only [memName, List.any_cons, hfn, Bool.false_or]
    · simp only [memName, List.any_cons, hfn, Bool.false_or]

/-- Rotation moves the file out of the live directory and into both stores. -/
theorem rotateOne_moves {f : Str} {fs fs1 : NotesFS} {tasks : List Str}
    (h : rotateOne f fs = .ok (fs1, tasks)) :
    memName f fs1.backup = true ∧ memName f fs1.archive = true ∧
    memName f fs1.live = false := by
  unfold rotateOne at h
  cases hl : lookupDoc fs.live f with
  | none => rw [hl] at h; exact absurd h (by simp)
  | some lines =>
    rw [hl] at h
    simp only [Except.ok.injEq, Prod.mk.injEq] at h
    obtain ⟨hfs, -⟩ := h
    subst hfs
    refine ⟨?_, ?_, memName_filter_self f fs.live⟩
    · simp [memName, List.any_cons]
    · simp [memName, List.any_cons]

/-- A file not selected for rotation is untouched by the whole loop. -/
theorem processOldLoop_ok_preserve {t n : Str} (hsel : lexLt n t = false) :
    ∀ (files : List Str) (fs : NotesFS) (acc : List Str) (fs2 : NotesFS) (acc2 : List Str),
      processOldLoop t files fs acc = .ok (fs2, acc2) →
      memName n fs2.live = memName n fs.live ∧
      memName n fs2.backup = memName n fs.backup ∧
      memName n fs2.archive = memName n fs.archive
  | [], fs, acc, fs2, acc2, h => by
    simp only [processOldLoop, Except.ok.injEq, Prod.mk.injEq] at h
    obtain ⟨rfl, -⟩ := h
    exact ⟨rfl, rfl, rfl⟩
  | f :: rest, fs, acc, fs2, acc2, h => by
    simp only [processOldLoop] at h
    split_ifs at h with hf
    · cases hr : rotateOne f fs with
      | error e => rw [hr] at h; exact absurd h (by simp)
      | ok pr =>
        obtain ⟨fs1, tasks⟩ := pr
        rw [hr] at h
        have hnef : n ≠ f := by
          intro he
          rw [he, hf] at hsel
          exact absurd hsel (by simp)
        have frame := rotateOne_frame hnef hr
        have rec := processOldLoop_ok_preserve hsel rest fs1 (acc ++ tasks) fs2 acc2 h
        exact ⟨by rw [rec.1, frame.1], by rw [rec.2.1, frame.2.1], by rw [rec.2.2, frame.2.2]⟩
    · exact processOldLoop_ok_preserve hsel rest fs acc fs2 acc2 h

theorem processOldLoop_backup_mono {t n : Str} :
    ∀ (files : List Str) (fs : NotesFS) (acc : List Str) (fs2 : NotesFS) (acc2 : List Str),
      processOldLoop t files fs acc = .ok (fs2, acc2) →
      memName n fs.backup = true → memName n fs2.backup = true
  | [], fs, acc, fs2, acc2, h, hb => by
    simp only [processOldLoop, Except.ok.injEq, Prod.mk.injEq] at h
    obtain ⟨rfl, -⟩ := h
    exact hb
  | f :: rest, fs, acc, fs2, acc2, h, hb => by
    simp only [processOldLoop] at h
    split_ifs at h with hf
    · cases hr : rotateOne f fs with
      | error e => rw [hr] at h; exact absurd h (by simp)
      | ok pr =>
        obtain ⟨fs1, tasks⟩ := pr
        rw [hr] at h
        have hb1 : memName n fs1.backup = true := by
          unfold rotateOne at hr
          cases hl : lookupDoc fs.live f with
          | none => rw [hl] at hr; exact absurd hr (by simp)
          | some lines =>
            rw [hl] at hr
            simp only [Except.ok.injEq, Prod.mk.injEq] at hr
            obtain ⟨hfs, -⟩ := hr
            subst hfs
            simp only [memName, List.any_cons]
            simp only [memName] at hb
            rw [hb]
            simp
        exact processOldLoop_backup_mono rest fs1 (acc ++ tasks) fs2 acc2 h hb1
    · exact processOldLoop_backup_mono rest fs acc fs2 acc2 h hb

theorem processOldLoop_archive_mono {t n : Str} :
    ∀ (files : List Str) (fs : NotesFS) (acc : List Str) (fs2 : NotesFS) (acc2 : List Str),
      processOldLoop t files fs acc = .ok (fs2, acc2) →
      memName n fs.archive = true → memName n fs2.archive = true
  | [], fs, acc, fs2, acc2, h, hb => by
    simp only [processOldLoop, Except.ok.injEq, Prod.mk.injEq] at h
    obtain ⟨rfl, -⟩ := h
    exact hb
  | f :: rest, fs, acc, fs2, acc2, h, hb => by
    simp only [processOldLoop] at h
    split_ifs at h with hf
    · cases hr : rotateOne f fs with
      | error e => rw [hr] at h; exact absurd h (by simp)
      | ok pr =>
        obtain ⟨fs1, tasks⟩ := pr
        rw [hr] at h
        have hb1 : memName n fs1.archive = true := by
          unfold rotateOne at hr
          cases hl : lookupDoc fs.live f with
          | none => rw [hl] at hr; exact absurd hr (by simp)
          | some lines =>
            rw [hl] at hr
            simp only [Except.ok.injEq, Prod.mk.injEq] at hr
            obtain ⟨hfs, -⟩ := hr
            subst hfs
            simp only [memName, List.any_cons]
            simp only [memName] at hb
            rw [hb]
            simp
        exact processOldLoop_archive_mono rest fs1 (acc ++ tasks) fs2 acc2 h hb1
    · exact processOldLoop_archive_mono rest fs acc fs2 acc2 h hb

theorem processOldLoop_live_anti {t n : Str} :
    ∀ (files : List Str) (fs : NotesFS) (acc : List Str) (fs2 : NotesFS) (acc2 : List Str),
      processOldLoop t files fs acc = .ok (fs2, acc2) →
      memName n fs.live = false → memName n fs2.live = false
  | [], fs, acc, fs2, acc2, h, hb => by
    simp only [processOldLoop, Except.ok.injEq, Prod.mk.injEq] at h
    obtain ⟨rfl, -⟩ := h
    exact hb
  | f :: rest, fs, acc, fs2, acc2, h, hb => by
    simp only [processOldLoop] at h
    split_ifs at h with hf
    · cases hr : rotateOne f fs with
      | error e => rw [hr] at h; exact absurd h (by simp)
      | ok pr =>
        obtain ⟨fs1, tasks⟩ := pr
        rw [hr] at h
        have hb1 : memName n fs1.live = false := by
          unfold rotateOne at hr
          cases hl : lookupDoc fs.live f with
          | none => rw [hl] at hr; exact absurd hr (by simp)
          | some lines =>
            rw [hl] at hr
            simp only [Except.ok.injEq, Prod.mk.injEq] at hr
            obtain ⟨hfs, -⟩ := hr
            subst hfs
            exact memName_filter_false hb _
        exact processOldLoop_live_anti rest fs1 (acc ++ tasks) fs2 acc2 h hb1
    · exact processOldLoop_live_anti rest fs acc fs2 acc2 h hb

/-- A live file selected for rotation ends in both stores and out of the
live directory when the loop succeeds. -/
theorem processOldLoop_rotated {t n : Str} (hsel : lexLt n t = true) :
    ∀ (files : List Str) (fs : NotesFS) (acc : List Str) (fs2 : NotesFS) (acc2 : List Str),
      processOldLoop t files fs acc = .ok (fs2, acc2) →
      n ∈ files → memName n fs.live = true →
      memName n fs2.backup = true ∧ memName n fs2.archive = true ∧
      memName n fs2.live = false
  | [], _, _, _, _, _, hmem, _ => absurd hmem (List.not_mem_nil n)
  | f :: rest, fs, acc, fs2, acc2, h, hmem, hlive => by
    simp only [processOldLoop] at h
    by_cases hfn : f = n
    · subst hfn
      rw [if_pos hsel] at h
      cases hr : rotateOne f fs with
      | error e => rw [hr] at h; exact absurd h (by simp)
      | ok pr =>
        obtain ⟨fs1, tasks⟩ := pr
        rw [hr] at h
        have moves := rotateOne_moves hr
        exact ⟨processOldLoop_backup_mono rest fs1 (acc ++ tasks) fs2 acc2 h moves.1,
          processOldLoop_archive_mono rest fs1 (acc ++ tasks) fs2 acc2 h moves.2.1,
          processOldLoop_live_anti rest fs1 (acc ++ tasks) fs2 acc2 h moves.2.2⟩
    · have hmem2 : n ∈ rest := by
        rcases List.mem_cons.mp hmem with he | h2
        · exact absurd he.symm hfn
        · exact h2
      have hnef : n ≠ f := fun he => hfn he.symm
      split_ifs at h with hf
      · cases hr : rotateOne f fs with
        | error e => rw [hr] at h; exact absurd h (by simp)
        | ok pr =>
          obtain ⟨fs1, tasks⟩ := pr
          rw [hr] at h
          have frame := rotateOne_frame hnef hr
          exact processOldLoop_rotated hsel rest fs1 (acc ++ tasks) fs2 acc2 h hmem2
            (by rw [frame.1]; exact hlive)
      · exact processOldLoop_rotated hsel rest fs acc fs2 acc2 h hmem2 hlive

/-- Claim C4: `process_old` rotates exactly the files whose embedded date is
strictly below the ISO string of today: such a file ends up in both the
backup and archive stores and out of the live directory, while a file dated
today or later is left untouched; and the comparison on the full file name
with its `.md` suffix agrees with the comparison on the embedded date. -/
theorem process_old_rotates_exactly (note_files : List Str) (fs : NotesFS)
    (today fdt : Date) (fs2 : NotesFS) (inc : List Str)
    (h : process_old note_files fs today = .ok (fs2, inc))
    (hmem : (toIso fdt ++ str ".md") ∈ note_files)
    (hlive : memName (toIso fdt ++ str ".md") fs.live = true)
    (hback : memName (toIso fdt ++ str ".md") fs.backup = false)
    (harch : memName (toIso fdt ++ str ".md") fs.archive = false) :
    (lexLt (toIso fdt ++ str ".md") (toIso today) = lexLt (toIso fdt) (toIso today)) ∧
    (lexLt (toIso fdt) (toIso today) = true →
      memName (toIso fdt ++ str ".md") fs2.backup = true ∧
      memName (toIso fdt ++ str ".md") fs2.archive = true ∧
      memName (toIso fdt ++ str ".md") fs2.live = false) ∧
    (lexLt (toIso fdt) (toIso today) = false →
      memName (toIso fdt ++ str ".md") fs2.live = true ∧
      memName (toIso fdt ++ str ".md") fs2.backup = false ∧
      memName (toIso fdt ++ str ".md") fs2.archive = false) := by
  have hbridge : lexLt (toIso fdt ++ str ".md") (toIso today)
      = lexLt (toIso fdt) (toIso today) :=
    lexLt_append_right _ (by rw [toIso_length, toIso_length])
  unfold process_old at h
  cases hloop : processOldLoop (toIso today) note_files fs [] with
  | error f => rw [hloop] at h; exact absurd h (by simp)
  | ok pr =>
    obtain ⟨fs3, acc⟩ := pr
    rw [hloop] at h
    simp only [Except.ok.injEq, Prod.mk.injEq] at h
    obtain ⟨rfl, -⟩ := h
    refine ⟨hbridge, ?_, ?_⟩
    · intro hsel
      exact processOldLoop_rotated (by rw [hbridge]; exact hsel) note_files fs [] fs3 acc
        hloop hmem hlive
    · intro hnsel
      have pres := processOldLoop_ok_preserve (by rw [hbridge]; exact hnsel)
        note_files fs [] fs3 acc hloop
      exact ⟨by rw [pres.1]; exact hlive, by rw [pres.2.1]; exact hback,
        by rw [pres.2.2]; exact harch⟩

/-- Witness for claim C4 at a concrete directory and dates. -/
theorem process_old_rotates_exactly_witness :
    (process_old [toIso ⟨2025, 1, 1⟩ ++ str ".md", toIso ⟨2025, 1, 4⟩ ++ str ".md"]
        ⟨[(str "2025-01-01.md", [str "- [ ] Task 1"]), (str "2025-01-04.md", [str "x"])],
          [], [], none⟩ ⟨2025, 1, 3⟩ =
      .ok (⟨[(str "2025-01-04.md", [str "x"])],
            [(str "2025-01-01.md", [str "- [ ] Task 1"])],
            [(str "2025-01-01.md", [str "- [ ] Task 1"])], none⟩,
           [str "Task 1"])) ∧
    ((lexLt (toIso ⟨2025, 1, 1⟩ ++ str ".md") (toIso ⟨2025, 1, 3⟩)
        = lexLt (toIso ⟨2025, 1, 1⟩) (toIso ⟨2025, 1, 3⟩)) ∧
    (lexLt (toIso ⟨2025, 1, 1⟩) (toIso ⟨2025, 1, 3⟩) = true →
      memName (toIso ⟨2025, 1, 1⟩ ++ str ".md")
        (⟨[(str "2025-01-04.md", [str "x"])],
          [(str "2025-01-01.md", [str "- [ ] Task 1"])],
          [(str "2025-01-01.md", [str "- [ ] Task 1"])], none⟩ : NotesFS).backup = true ∧
      memName (toIso ⟨2025, 1, 1⟩ ++ str ".md")
        (⟨[(str "2025-01-04.md", [str "x"])],
          [(str "2025-01-01.md", [str "- [ ] Task 1"])],
          [(str "2025-01-01.md", [str "- [ ] Task 1"])], none⟩ : NotesFS).archive = true ∧
      memName (toIso ⟨2025, 1, 1⟩ ++ str ".md")
        (⟨[(str "2025-01-04.md", [str "x"])],
          [(str "2025-01-01.md", [str "- [ ] Task 1"])],
          [(str "2025-01-01.md", [str "- [ ] Task 1"])], none⟩ : NotesFS).live = false) ∧
    (lexLt (toIso ⟨2025, 1, 1⟩) (toIso ⟨2025, 1, 3⟩) = false →
      memName (toIso ⟨2025, 1, 1⟩ ++ str ".md")
        (⟨[(str "2025-01-04.md", [str "x"])],
          [(str "2025-01-01.md", [str "- [ ] Task 1"])],
          [(str "2025-01-01.md", [str "- [ ] Task 1"])], none⟩ : NotesFS).live = true ∧
      memName (toIso ⟨2025, 1, 1⟩ ++ str ".md")
        (⟨[(str "2025-01-04.md", [str "x"])],
          [(str "2025-01-01.md", [str "- [ ] Task 1"])],
          [(str "2025-01-01.md", [str "- [ ] Task 1"])], none⟩ : NotesFS).backup = false ∧
      memName (toIso ⟨2025, 1, 1⟩ ++ str ".md")
        (⟨[(str "2025-01-04.md", [str "x"])],
          [(str "2025-01-01.md", [str "- [ ] Task 1"])],
          [(str "2025-01-01.md", [str "- [ ] Task 1"])], none⟩ : NotesFS).archive = false)) :=
  ⟨by rfl,
   process_old_rotates_exactly
     [toIso ⟨2025, 1, 1⟩ ++ str ".md", toIso ⟨2025, 1, 4⟩ ++ str ".md"]
     ⟨[(str "2025-01-01.md", [str "- [ ] Task 1"]), (str "2025-01-04.md", [str "x"])],
       [], [], none⟩ ⟨2025, 1, 3⟩ ⟨2025, 1, 1⟩ _ _ (by rfl) (by decide) (by decide)
     (by decide) (by decide)⟩

/-- Claim C6: a failure while rotating one selected file terminates the
whole run with an error carrying the offending file name, regardless of how
many files remain after it: the failing file is not skipped and nothing
after it is processed. -/
theorem process_old_fail_fast (t : Str) :
    ∀ (pre : List Str) (f : Str) (post : List Str) (fs : NotesFS) (acc : List Str)
      (fs1 : NotesFS) (acc1 : List Str),
      processOldLoop t pre fs acc = .ok (fs1, acc1) →
      lexLt f t = true → rotateOne f fs1 = .error () →
      processOldLoop t (pre ++ f :: post) fs acc = .error f
  | [], f, post, fs, acc, fs1, acc1, h, hsel, herr => by
    simp only [processOldLoop, Except.ok.injEq, Prod.mk.injEq] at h
    obtain ⟨rfl, -⟩ := h
    simp only [List.nil_append, processOldLoop]
    rw [if_pos hsel, herr]
  | p :: pre, f, post, fs, acc, fs1, acc1, h, hsel, herr => by
    simp only [processOldLoop] at h
    simp only [List.cons_append, processOldLoop]
    split_ifs at h with hp
    · rw [if_pos hp]
      cases hr : rotateOne p fs with
      | error e =>
        rw [hr] at h
        exact absurd h (by simp)
      | ok pr =>
        obtain ⟨fsx, tk⟩ := pr
        rw [hr] at h
        exact process_old_fail_fast t pre f post fsx (acc ++ tk) fs1 acc1 h hsel herr
    · rw [if_neg hp]
      exact process_old_fail_fast t pre f post fs acc fs1 acc1 h hsel herr

/-- Witness for claim C6: a selected file missing from the live directory
terminates the loop with its name, with a file still pending after it. -/
theorem process_old_fail_fast_witness :
    (processOldLoop (toIso ⟨2025, 1, 5⟩) [str "2025-01-01.md"]
        ⟨[(str "2025-01-01.md", [str "x"]), (str "2025-01-03.md", [str "y"])], [], [], none⟩ []
      = .ok (⟨[(str "2025-01-03.md", [str "y"])],
              [(str "2025-01-01.md", [str "x"])],
              [(str "2025-01-01.md", [str "x"])], none⟩, [])) ∧
    lexLt (str "2025-01-02.md") (toIso ⟨2025, 1, 5⟩) = true ∧
    (rotateOne (str "2025-01-02.md")
        ⟨[(str "2025-01-03.md", [str "y"])],
          [(str "2025-01-01.md", [str "x"])],
          [(str "2025-01-01.md", [str "x"])], none⟩ = .error ()) ∧
    processOldLoop (toIso ⟨2025, 1, 5⟩)
        ([str "2025-01-01.md"] ++ str "2025-01-02.md" :: [str "2025-01-03.md"])
        ⟨[(str "2025-01-01.md", [str "x"]), (str "2025-01-03.md", [str "y"])], [], [], none⟩ []
      = .error (str "2025-01-02.md") :=
  ⟨by rfl, by decide, by rfl,
   process_old_fail_fast (toIso ⟨2025, 1, 5⟩) [str "2025-01-01.md"] (str "2025-01-02.md")
     [str "2025-01-03.md"]
     ⟨[(str "2025-01-01.md", [str "x"]), (str "2025-01-03.md", [str "y"])], [], [], none⟩ []
     _ _ (by rfl) (by decide) (by rfl)⟩
